import Mathlib

/-!
Verification of the saf-eval fact-evaluation pipeline.

This file shallowly embeds the parts of the repository relevant to the
frozen claims: the atomic-fact data model (`saf_eval/core/models.py`),
fact deduplication and its similarity scorer
(`saf_eval/utils/deduplication.py`, built on Python `difflib.SequenceMatcher`),
the factuality scorer (`saf_eval/evaluation/scoring.py`),
the fact extractor (`saf_eval/extraction/extractor.py`) and the
containment checker (`saf_eval/containment/checker.py`).

Python floats are modelled as rationals (`ℚ`); on every concrete input used
below the float computations of the source are exact enough that the float
and rational comparison results coincide.  Python strings are modelled as
`String`/`List Char`; `str.lower` is modelled by `Char.toLower` (they agree
on ASCII, which covers all inputs appearing in the claims).
-/

set_option autoImplicit false
set_option maxHeartbeats 1000000

/-! ## Python string helpers -/

/-- The characters stripped by Python `str.strip()` / split on by `str.split()`
(the ASCII whitespace characters; the rare extra Unicode whitespace accepted by
Python does not occur in any input of the claims). -/
def isPySpace (c : Char) : Bool :=
  c = ' ' || c = '\t' || c = '\n' || c = '\r' || c = '\x0b' || c = '\x0c'

/-- Python `str.strip()` with no arguments: drop leading and trailing whitespace. -/
def pyStrip (s : String) : String :=
  String.mk (((s.data.dropWhile isPySpace).reverse.dropWhile isPySpace).reverse)

/-- Python `str.lstrip(c)` for a single-character argument: drop every leading `c`. -/
def lstripChar (c : Char) (s : String) : String :=
  String.mk (s.data.dropWhile (fun d => d = c))

/-- Python `str.lower()` (ASCII case folding). -/
def pyLower (s : String) : String :=
  String.mk (s.data.map Char.toLower)

/-- Split a character list at every character satisfying `p`, keeping empty
segments (the splitting underlying Python `str.split(sep)`). -/
def splitP (p : Char → Bool) : List Char → List (List Char)
  | [] => [[]]
  | c :: cs =>
    match splitP p cs with
    | [] => []
    | w :: ws => if p c then [] :: w :: ws else (c :: w) :: ws

/-- Python `str.split(sep)` for a single-character separator: split at every
occurrence, keeping empty segments. -/
def pySplit (sep : Char) (s : String) : List String :=
  (splitP (fun c => c = sep) s.data).map String.mk

/-- Python `str.split()` with no arguments: split on whitespace characters,
discarding empty segments. -/
def pySplitWs (s : String) : List String :=
  ((splitP isPySpace s.data).map String.mk).filter (fun w => w ≠ "")

/-! ## Data model (`saf_eval/core/models.py`) -/

/-- `AtomicFact` from `saf_eval/core/models.py`.  The two optional flags default
to Python `None`, modelled as `Option.none`. -/
structure AtomicFact where
  id : String
  text : String
  source_text : String
  is_self_contained : Option Bool := none
  is_relevant : Option Bool := none
deriving DecidableEq, Repr

/-- `RetrievedDocument` from `saf_eval/core/models.py`. -/
structure RetrievedDocument where
  id : String
  content : String
  source : String
  relevance_score : Option ℚ := none
deriving DecidableEq, Repr

/-- `FactEvaluation` from `saf_eval/core/models.py`. -/
structure FactEvaluation where
  fact : AtomicFact
  documents : List RetrievedDocument
  category : String
  confidence : ℚ
deriving DecidableEq, Repr

/-- `ResponseEvaluation` from `saf_eval/core/models.py`. -/
structure ResponseEvaluation where
  response_text : String
  context : String
  facts : List AtomicFact
  evaluations : List FactEvaluation
  factuality_score : ℚ
deriving DecidableEq, Repr

/-! ## `difflib.SequenceMatcher` (CPython standard library)

`_calculate_similarity` in `saf_eval/utils/deduplication.py` is
`SequenceMatcher(None, text1.lower(), text2.lower()).ratio()`.  The embedding
below follows CPython `difflib.py` (`__chain_b`, `find_longest_match`,
`get_matching_blocks`, `ratio`) for `isjunk = None` and `autojunk = True`:

* `b2j` maps each element of `b` to its (ascending) list of indices in `b`,
  except that when `len(b) >= 200` the *popular* elements (appearing more
  than `len(b) // 100 + 1` times) are purged from `b2j`;
* with `isjunk = None` the junk set `bjunk` is empty, so in
  `find_longest_match` `isbjunk` is constantly false: the first pair of
  extension loops extends over arbitrary equal elements and the second
  (junk-only) pair never fires and is omitted here;
* `ratio` is `2 * M / T` where `M` is the total size of the matching blocks
  and `T` the sum of lengths, and `1.0` when `T = 0`. -/

/-- Whether `c` is an autojunk-popular element of `b`
(CPython `difflib.SequenceMatcher.__chain_b`: only when `len(b) >= 200`,
elements occurring more than `len(b) // 100 + 1` times are purged). -/
def popularB (b : List Char) (c : Char) : Bool :=
  decide (200 ≤ b.length) && decide (b.length / 100 + 1 < b.count c)

/-- Ascending list of indices of `c` in `b` (the `b2j` table entry before the
autojunk purge). -/
def b2jAll (b : List Char) (c : Char) : List Nat :=
  (List.range b.length).filter (fun j => b.get? j = some c)

/-- The `b2j` table entry of `c`: its indices in `b`, empty if `c` is popular. -/
def b2j (b : List Char) (c : Char) : List Nat :=
  if popularB b c then [] else b2jAll b c

/-- The indices of `b2j b c` that survive the `if j < blo: continue` /
`if j >= bhi: break` window filter of `find_longest_match` (the list is
ascending, so the filter keeps exactly the indices in `[blo, bhi)`). -/
def jsIn (b : List Char) (c : Char) (blo bhi : Nat) : List Nat :=
  (b2j b c).filter (fun j => decide (blo ≤ j) && decide (j < bhi))

/-- The `j2len` dictionary of `find_longest_match`, as an association list. -/
abbrev J2Len := List (Nat × Nat)

/-- `j2len.get(j, 0)`. -/
def lk (t : J2Len) (j : Nat) : Nat :=
  match t.lookup j with
  | some k => k
  | none => 0

/-- `j2len.get(j - 1, 0)` as used in the inner loop of `find_longest_match`;
Python evaluates `j - 1` as `-1` when `j = 0`, for which `get` yields the
default `0`. -/
def lkPred (t : J2Len) (j : Nat) : Nat :=
  if j = 0 then 0 else lk t (j - 1)

/-- The inner loop of `find_longest_match`, over the window-filtered index
list `js` of `a[i]`: builds `newj2len` and updates the running best triple
`(besti, bestj, bestsize)` whenever a strictly longer match is found
(`if k > bestsize`).  `newj2len` entries are accumulated by prepending; the
keys of `js` are distinct so lookups are unaffected. -/
def innerLoop (j2 : J2Len) (i : Nat) :
    List Nat → J2Len → Nat × Nat × Nat → J2Len × (Nat × Nat × Nat)
  | [], acc, best => (acc, best)
  | j :: js, acc, (bi, bj, bs) =>
    let k := lkPred j2 j + 1
    innerLoop j2 i js ((j, k) :: acc)
      (if bs < k then (i + 1 - k, j + 1 - k, k) else (bi, bj, bs))

/-- The outer loop of `find_longest_match` over `i in range(alo, ahi)`:
threads `(j2len, best)`.  If `a.get? i` is out of range the source would
fault; the branch is irrelevant because every use is within bounds. -/
def outerLoop (a b : List Char) (blo bhi : Nat) :
    List Nat → J2Len × (Nat × Nat × Nat) → J2Len × (Nat × Nat × Nat)
  | [], st => st
  | i :: is, (j2, best) =>
    match a.get? i with
    | some c => outerLoop a b blo bhi is (innerLoop j2 i (jsIn b c blo bhi) [] best)
    | none => outerLoop a b blo bhi is ([], best)

/-- The dynamic-programming part of `find_longest_match`: the best triple
after the `for i in range(alo, ahi)` loop, starting from
`besti, bestj, bestsize = alo, blo, 0`. -/
def dpBest (a b : List Char) (alo ahi blo bhi : Nat) : Nat × Nat × Nat :=
  (outerLoop a b blo bhi (List.range' alo (ahi - alo)) ([], (alo, blo, 0))).2

/-- The first left-extension loop of `find_longest_match` (`isbjunk` is
constantly false with `isjunk = None`, so the guard reduces to equality of
the adjacent elements).  `fuel` bounds the iteration count; it is called
with `fuel = besti`, which the loop condition `besti > alo` never exhausts. -/
def extLeft (a b : List Char) (alo blo : Nat) :
    Nat → Nat × Nat × Nat → Nat × Nat × Nat
  | 0, best => best
  | fuel + 1, (bi, bj, bs) =>
    if alo < bi ∧ blo < bj ∧ (a.get? (bi - 1)).isSome ∧
        a.get? (bi - 1) = b.get? (bj - 1) then
      extLeft a b alo blo fuel (bi - 1, bj - 1, bs + 1)
    else
      (bi, bj, bs)

/-- The first right-extension loop of `find_longest_match` (again with
`isbjunk` constantly false). -/
def extRight (a b : List Char) (ahi bhi : Nat) :
    Nat → Nat × Nat × Nat → Nat × Nat × Nat
  | 0, best => best
  | fuel + 1, (bi, bj, bs) =>
    if bi + bs < ahi ∧ bj + bs < bhi ∧ (a.get? (bi + bs)).isSome ∧
        a.get? (bi + bs) = b.get? (bj + bs) then
      extRight a b ahi bhi fuel (bi, bj, bs + 1)
    else
      (bi, bj, bs)

/-- `find_longest_match(alo, ahi, blo, bhi)` for `isjunk = None`: the DP best
followed by the two non-junk extension loops (the two junk extension loops of
the source never fire because `bjunk` is empty). -/
def flm (a b : List Char) (alo ahi blo bhi : Nat) : Nat × Nat × Nat :=
  let d := dpBest a b alo ahi blo bhi
  let l := extLeft a b alo blo d.1 d
  extRight a b ahi bhi (ahi - (l.1 + l.2.2)) l

/-- Total size of the matching blocks of `get_matching_blocks` restricted to
the window `(alo, ahi, blo, bhi)` — the recursion of `get_matching_blocks`
on the queue of sub-windows, keeping only the sum of block sizes (which is
all `ratio` consumes; the merging of adjacent blocks in the source does not
change the sum).  `fuel` dominates the recursion depth; every use supplies
at least `a.length + 1`. -/
def matchTotal (a b : List Char) : Nat → Nat → Nat → Nat → Nat → Nat
  | 0, _, _, _, _ => 0
  | fuel + 1, alo, ahi, blo, bhi =>
    let m := flm a b alo ahi blo bhi
    if m.2.2 = 0 then 0
    else
      matchTotal a b fuel alo m.1 blo m.2.1 + m.2.2 +
        matchTotal a b fuel (m.1 + m.2.2) ahi (m.2.1 + m.2.2) bhi

/-- `SequenceMatcher.ratio()`: `2 * M / T`, and `1.0` when `T = 0`
(CPython `difflib._calculate_ratio`). -/
def ratioQ (a b : List Char) : ℚ :=
  if a.length + b.length = 0 then 1
  else
    2 * (matchTotal a b (a.length + 1) 0 a.length 0 b.length : ℚ) /
      ((a.length : ℚ) + (b.length : ℚ))

/-- `_calculate_similarity` from `saf_eval/utils/deduplication.py`:
`SequenceMatcher(None, text1.lower(), text2.lower()).ratio()`. -/
def calculate_similarity (text1 text2 : String) : ℚ :=
  ratioQ (pyLower text1).data (pyLower text2).data

/-! ## Deduplication (`saf_eval/utils/deduplication.py`) -/

/-- One iteration of the `for fact in facts[1:]` loop of `deduplicate_facts`:
the fact is appended to the accumulator unless its similarity to some
already-kept fact reaches the threshold (the `for unique_fact in
unique_facts` scan with first-match `break`; `highest_similarity` and
`duplicates` only feed logging). -/
def dedupStep (t : ℚ) (acc : List AtomicFact) (fact : AtomicFact) : List AtomicFact :=
  if acc.any (fun u => t ≤ calculate_similarity fact.text u.text) then acc
  else acc ++ [fact]

/-- `deduplicate_facts` from `saf_eval/utils/deduplication.py`: empty input
yields empty output; otherwise the accumulator starts with the first fact and
each later fact is processed by `dedupStep` in input order. -/
def deduplicate_facts (facts : List AtomicFact) (t : ℚ) : List AtomicFact :=
  match facts with
  | [] => []
  | f :: rest => rest.foldl (dedupStep t) [f]

/-! ## Factuality scoring (`saf_eval/evaluation/scoring.py`) -/

/-- `self.scoring_rubric.get(category, 0.0)`; the rubric dictionary is
modelled as an association list. -/
def rubricGet (rubric : List (String × ℚ)) (category : String) : ℚ :=
  match rubric.lookup category with
  | some w => w
  | none => 0

/-- `FactualityScorer.score`: an empty evaluation list yields the 0.0 floor;
otherwise the confidence-weighted rubric scores are accumulated and divided
by the number of evaluations. -/
def FactualityScorer.score (rubric : List (String × ℚ))
    (response_text context : String) (evaluations : List FactEvaluation) :
    ResponseEvaluation :=
  if evaluations = [] then
    { response_text := response_text
      context := context
      facts := evaluations.map (fun e => e.fact)
      evaluations := evaluations
      factuality_score := 0 }
  else
    { response_text := response_text
      context := context
      facts := evaluations.map (fun e => e.fact)
      evaluations := evaluations
      factuality_score :=
        (evaluations.foldl
          (fun total e => total + rubricGet rubric e.category * e.confidence) 0) /
          (evaluations.length : ℚ) }

/-! ## Fact extraction (`saf_eval/extraction/extractor.py`)

`uuid.uuid4()` is nondeterministic; it is modelled by an explicit id supply
`idGen : Nat → String` indexed by the position of the fact. -/

/-- `FactExtractor._extract_basic`: split the response on `'.'`, strip each
segment, discard segments that strip to empty, and wrap each survivor in an
`AtomicFact` with `source_text` the full response. -/
def extract_basic (idGen : Nat → String) (response : String) : List AtomicFact :=
  let sentences := ((pySplit '.' response).map pyStrip).filter (fun s => s ≠ "")
  sentences.enum.map (fun p =>
    { id := idGen p.1, text := p.2, source_text := response })

/-- The per-line cleanup of `FactExtractor._extract_with_llm`: strip the
line, strip leading `•` then `-` then `*` then strip again, then if the line
has length `> 2`, its first character is a digit and the rest starts with
`". "`, drop through the first `'.'` (`line[line.find('.') + 1:]`) and strip;
the line is kept if nonempty. -/
def processLine (raw : String) : Option String :=
  let l1 := pyStrip raw
  let l2 := pyStrip (lstripChar '*' (lstripChar '-' (lstripChar '•' l1)))
  let l3 :=
    if (l2 ≠ "" : Bool) && decide (2 < l2.data.length) &&
        (match l2.data.head? with | some c => c.isDigit | none => false) &&
        (". ".data.isPrefixOf (l2.data.drop 1)) then
      pyStrip (String.mk ((l2.data.dropWhile (fun c => c ≠ '.')).drop 1))
    else l2
  if l3 = "" then none else some l3

/-- The parsing stage of `FactExtractor._extract_with_llm`: strip the LLM
output, split it on `'\n'`, and clean each line, discarding lines that clean
to empty. -/
def parseFacts (result : String) : List String :=
  (pySplit '\n' (pyStrip result)).filterMap processLine

/-- `FactExtractor._extract_with_llm` after the LLM call: the generator
output `llmResult` is parsed into lines and each surviving line becomes an
`AtomicFact` with a fresh id and `source_text = response` (the final
comprehension re-strips and re-filters, which is a no-op on the already
stripped nonempty lines but is mirrored anyway). -/
def extract_with_llm (idGen : Nat → String) (response llmResult : String) :
    List AtomicFact :=
  let fs := (parseFacts llmResult).filter (fun f => pyStrip f ≠ "")
  fs.enum.map (fun p =>
    { id := idGen p.1, text := pyStrip p.2, source_text := response })

/-! ## Containment checking (`saf_eval/containment/checker.py`)

The LLM is modelled as an oracle `Option (String → String)` mapping a prompt
to the generated completion (`None` when no LLM is configured).  The prompt
texts are assembled as in the source with the whitespace of the Python
triple-quoted literals condensed; no claim depends on the prompt contents. -/

/-- The prompt of `ContainmentChecker._check_with_llm`. -/
def promptCheck (response factText : String) : String :=
  "Determine if the following fact is self-contained within the original text. " ++
  "A self-contained fact is one that does not require external context to understand. " ++
  "Original text: " ++ response ++ " Fact to check: " ++ factText ++
  " Is this fact self-contained? Answer with only yes or no."

/-- The prompt of `ContainmentChecker.self_contain_facts`. -/
def promptContain (response : String) (context : Option String) (factText : String) :
    String :=
  "Make the following fact self-contained so it can be understood without additional context. " ++
  "A self-contained fact should include all necessary details to be understood on its own. " ++
  "Original response: " ++ response ++
  (match context with
   | some ctx => " Additional context: " ++ ctx
   | none => "") ++
  " Fact to make self-contained: " ++ factText ++
  " Rewrite this as a self-contained fact:"

/-- `ContainmentChecker._check_basic`: a fact is marked self-contained iff
the set of its lowercased words is a subset of the lowercased word set of the
response. -/
def checkBasic (facts : List AtomicFact) (response : String) : List AtomicFact :=
  facts.map (fun fact =>
    { fact with
      is_self_contained :=
        some ((pySplitWs (pyLower fact.text)).all
          (fun w => (pySplitWs (pyLower response)).contains w)) })

/-- `ContainmentChecker._check_with_llm`: each fact is marked self-contained
iff the oracle answer, stripped and lowercased, is exactly `"yes"`. -/
def checkWithLLM (gen : String → String) (facts : List AtomicFact)
    (response : String) : List AtomicFact :=
  facts.map (fun fact =>
    { fact with
      is_self_contained :=
        some (pyLower (pyStrip (gen (promptCheck response fact.text))) = "yes") })

/-- `ContainmentChecker.check_containment`: dispatch on whether an LLM is
configured. -/
def check_containment (oracle : Option (String → String))
    (facts : List AtomicFact) (response : String) : List AtomicFact :=
  match oracle with
  | some gen => checkWithLLM gen facts response
  | none => checkBasic facts response

/-- `ContainmentChecker.self_contain_facts`: without an LLM the facts are
returned unchanged; with one, facts whose `is_self_contained` flag is truthy
(Python truthiness: `None` and `False` both fail the `if`) are kept and the
rest are rewritten by the oracle, with `is_self_contained` set to `True`. -/
def self_contain_facts (oracle : Option (String → String))
    (facts : List AtomicFact) (response : String) (context : Option String) :
    List AtomicFact :=
  match oracle with
  | none => facts
  | some gen =>
    facts.map (fun fact =>
      match fact.is_self_contained with
      | some true => fact
      | _ =>
        { fact with
          text := pyStrip (gen (promptContain response context fact.text))
          is_self_contained := some true })

/-! ## Spec-side description of deduplication (for the refinement claim C1) -/

/-- The deduplication algorithm exactly as the spec words it (for comparison
with `deduplicate_facts`): "start an accumulator with the first fact ... for
each subsequent fact in original order ... if any comparison meets or exceeds
`threshold`, discard the fact as a duplicate ... otherwise append it to the
accumulator". -/
def dedupSpecGo (t : ℚ) : List AtomicFact → List AtomicFact → List AtomicFact
  | acc, [] => acc
  | acc, f :: rest =>
    if ∃ u ∈ acc, t ≤ calculate_similarity f.text u.text then dedupSpecGo t acc rest
    else dedupSpecGo t (acc ++ [f]) rest

/-- Spec-side deduplication: "if the input is empty, return empty", else run
the accumulator loop seeded with the first fact. -/
def dedupSpec (facts : List AtomicFact) (t : ℚ) : List AtomicFact :=
  match facts with
  | [] => []
  | f :: rest => dedupSpecGo t [f] rest

/-! ## Concrete fixtures used by counterexamples and witnesses -/

/-- A fact whose id, text and source all equal `s`. -/
def mkFact (s : String) : AtomicFact :=
  { id := s, text := s, source_text := s }

/-- Four facts on which raising the deduplication threshold from `1/2` to
`3/5` shrinks the output: at `1/2` the second fact is discarded (similarity
to the first is exactly `1/2`) and the last two survive, while at `3/5` the
second survives and then absorbs both of the last two. -/
def thresholdCexFacts : List AtomicFact :=
  [mkFact "pq", mkFact "pppqqq", mkFact "ppp", mkFact "qqq"]

/-! ## Verification-side predicates for the `find_longest_match` analysis -/

/-- A common run of length `k`: the `k` characters of `a` starting at `i`
exist and coincide with those of `b` starting at `j`. -/
def matchRun (a b : List Char) (i j k : Nat) : Prop :=
  ∀ m, m < k → ∃ ch, a.get? (i + m) = some ch ∧ b.get? (j + m) = some ch

/-- Whether position `j` of `s` holds a non-popular character (the positions
the autojunk-purged `b2j` table can see). -/
def nonpopB (s : List Char) (j : Nat) : Bool :=
  match s.get? j with
  | some c => !(popularB s c)
  | none => false

/-- Length of the run of non-popular positions of `s` ending at `j`, capped
at the window start `lo` (and `0` outside `[lo, hi)`): the value the `j2len`
chain of `find_longest_match` attains on the diagonal when both sequences
are `s` and the window is `[lo, hi)` on both sides. -/
def diagRun (s : List Char) (lo hi : Nat) : Nat → Nat
  | 0 => if lo = 0 ∧ 0 < hi ∧ nonpopB s 0 then 1 else 0
  | j + 1 =>
    if lo ≤ j + 1 ∧ j + 1 < hi ∧ nonpopB s (j + 1) then
      (if j + 1 = lo then 1 else diagRun s lo hi j + 1)
    else 0

/-! ## General helper lemmas -/

theorem map_snd_enumFrom {α : Type} :
    ∀ (n : Nat) (l : List α), (l.enumFrom n).map Prod.snd = l
  | _, [] => rfl
  | n, x :: xs => by
    simp only [List.enumFrom, List.map_cons, List.cons.injEq, true_and]
    exact map_snd_enumFrom (n + 1) xs

theorem map_snd_enum {α : Type} (l : List α) : l.enum.map Prod.snd = l :=
  map_snd_enumFrom 0 l

theorem score_foldl_eq_sum (rubric : List (String × ℚ)) :
    ∀ (l : List FactEvaluation) (c : ℚ),
      l.foldl (fun total e => total + rubricGet rubric e.category * e.confidence) c =
        c + (l.map (fun ev => rubricGet rubric ev.category * ev.confidence)).sum
  | [], c => by simp
  | x :: xs, c => by
    simp only [List.foldl_cons, List.map_cons, List.sum_cons]
    rw [score_foldl_eq_sum rubric xs (c + rubricGet rubric x.category * x.confidence)]
    ring

theorem rubricGet_absent (rubric : List (String × ℚ)) (c : String)
    (h : ∀ p ∈ rubric, p.1 ≠ c) : rubricGet rubric c = 0 := by
  induction rubric with
  | nil => rfl
  | cons p ps ih =>
    have hp : p.1 ≠ c := h p (by simp)
    have : (c == p.1) = false := beq_eq_false_iff_ne.mpr (Ne.symm hp)
    simp only [rubricGet, List.lookup, this]
    exact ih (fun q hq => h q (by simp [hq]))

/-! ## Claim C6 -/

/-- Claim C6: calling `FactualityScorer.score` with an empty evaluations list
is not an error: it returns a `ResponseEvaluation` with
`factuality_score = 0.0`, `facts = []` and `evaluations = []`. -/
theorem claim_C6 :
    ∀ (rubric : List (String × ℚ)) (rt ctx : String),
      FactualityScorer.score rubric rt ctx [] =
        { response_text := rt, context := ctx, facts := [], evaluations := [],
          factuality_score := 0 } := by
  intro rubric rt ctx
  simp [FactualityScorer.score]

/-! ## Claim C5 -/

/-- Claim C5: for every non-empty evaluation list, the factuality score is
the sum over evaluations of `rubric[category] * confidence` divided by the
number of evaluations; a category absent from the rubric contributes weight
`0.0`; and the two-evaluation instance with weights `1.0`, `0.0` and
confidences `1.0` scores `0.5`. -/
theorem claim_C5 :
    (∀ (rubric : List (String × ℚ)) (rt ctx : String) (e : FactEvaluation)
        (es : List FactEvaluation),
      (FactualityScorer.score rubric rt ctx (e :: es)).factuality_score =
        ((e :: es).map (fun ev => rubricGet rubric ev.category * ev.confidence)).sum /
          ((e :: es).length : ℚ)) ∧
    (∀ (rubric : List (String × ℚ)) (c : String),
      (∀ p ∈ rubric, p.1 ≠ c) → rubricGet rubric c = 0) ∧
    (∀ (fA fB : AtomicFact),
      (FactualityScorer.score [("A", 1), ("B", 0)] "rt" "ctx"
        [{ fact := fA, documents := [], category := "A", confidence := 1 },
         { fact := fB, documents := [], category := "B", confidence := 1 }]).factuality_score
        = 1 / 2) := by
  have hgen : ∀ (rubric : List (String × ℚ)) (rt ctx : String) (e : FactEvaluation)
      (es : List FactEvaluation),
      (FactualityScorer.score rubric rt ctx (e :: es)).factuality_score =
        ((e :: es).map (fun ev => rubricGet rubric ev.category * ev.confidence)).sum /
          ((e :: es).length : ℚ) := by
    intro rubric rt ctx e es
    simp only [FactualityScorer.score, if_neg (List.cons_ne_nil e es)]
    rw [score_foldl_eq_sum, zero_add]
  refine ⟨hgen, rubricGet_absent, ?_⟩
  intro fA fB
  rw [hgen]
  have h1 : (("A" : String) == "A") = true := by decide
  have h2 : (("B" : String) == "A") = false := by decide
  have h3 : (("B" : String) == "B") = true := by decide
  simp only [List.map_cons, List.map_nil, rubricGet, List.lookup, h1, h2, h3]
  norm_num

/-- Witness for C5: the absent-category hypothesis discharged at a concrete
rubric. -/
theorem claim_C5_witness : rubricGet [("A", 1)] "Z" = 0 :=
  claim_C5.2.1 [("A", (1 : ℚ))] "Z" (by decide)

/-! ## Claim C7 -/

/-- Claim C7: with no claim generator, extraction splits the response on
periods, strips each segment, discards empty segments, and yields one
`AtomicFact` per surviving segment with `source_text` the full response; on
"First fact. Second fact." it yields exactly the two texts "First fact" and
"Second fact". -/
theorem claim_C7 :
    (∀ (idGen : Nat → String) (response : String),
      ((extract_basic idGen response).map (fun f => f.text) =
        ((pySplit '.' response).map pyStrip).filter (fun s => s ≠ "")) ∧
      (∀ f ∈ extract_basic idGen response, f.source_text = response)) ∧
    (∀ (idGen : Nat → String),
      ((extract_basic idGen "First fact. Second fact.").map (fun f => f.text) =
        ["First fact", "Second fact"]) ∧
      (∀ f ∈ extract_basic idGen "First fact. Second fact.",
        f.source_text = "First fact. Second fact.")) := by
  have general : ∀ (idGen : Nat → String) (response : String),
      ((extract_basic idGen response).map (fun f => f.text) =
        ((pySplit '.' response).map pyStrip).filter (fun s => s ≠ "")) ∧
      (∀ f ∈ extract_basic idGen response, f.source_text = response) := by
    intro idGen response
    constructor
    · simp only [extract_basic, List.map_map]
      exact map_snd_enum _
    · intro f hf
      simp only [extract_basic, List.mem_map] at hf
      obtain ⟨p, _, rfl⟩ := hf
      rfl
  refine ⟨general, fun idGen => ⟨?_, (general idGen _).2⟩⟩
  rw [(general idGen _).1]
  decide

/-! ## Claim C8 -/

/-- Claim C8: with no claim judge, `check_containment` marks each fact
self-contained iff the set of the fact text's lowercase words is a subset of
the response's lowercase word set: the flag is set to `true` exactly when
every lowercase word of the fact occurs among the response's lowercase
words, and to `false` exactly when the fact introduces an absent word;
text, id and source are left unchanged. -/
theorem claim_C8 :
    ∀ (facts : List AtomicFact) (response : String),
      List.Forall₂ (fun f g =>
        (g.is_self_contained = some true ↔
          ∀ w ∈ pySplitWs (pyLower f.text), w ∈ pySplitWs (pyLower response)) ∧
        (g.is_self_contained = some false ↔
          ¬ ∀ w ∈ pySplitWs (pyLower f.text), w ∈ pySplitWs (pyLower response)) ∧
        g.text = f.text ∧ g.id = f.id ∧ g.source_text = f.source_text)
        facts (check_containment none facts response) := by
  intro facts response
  simp only [check_containment, checkBasic]
  induction facts with
  | nil => exact List.Forall₂.nil
  | cons f fs ih =>
    refine List.Forall₂.cons ⟨?_, ?_, rfl, rfl, rfl⟩ ih
    · simp [List.all_eq_true, List.contains]
    · simp [List.all_eq_true, List.contains]

/-- Witness for C8 at a concrete two-fact list covering both outcomes: the
first fact's words all occur in the response, the second introduces the
absent word "huge". -/
theorem claim_C8_witness :
    List.Forall₂ (fun f g =>
      (g.is_self_contained = some true ↔
        ∀ w ∈ pySplitWs (pyLower f.text), w ∈ pySplitWs (pyLower "Paris is big")) ∧
      (g.is_self_contained = some false ↔
        ¬ ∀ w ∈ pySplitWs (pyLower f.text), w ∈ pySplitWs (pyLower "Paris is big")) ∧
      g.text = f.text ∧ g.id = f.id ∧ g.source_text = f.source_text)
      [mkFact "paris is BIG", mkFact "paris is huge"]
      (check_containment none [mkFact "paris is BIG", mkFact "paris is huge"]
        "Paris is big") :=
  claim_C8 [mkFact "paris is BIG", mkFact "paris is huge"] "Paris is big"

/-! ## Claim C10 -/

/-- Claim C10 (implicit frame property): both containment operations preserve
the length and order of the fact list, and at each position the id,
`source_text` and `is_relevant` flag of the input fact — only the text and
the `is_self_contained` flag may differ; `check_containment` additionally
never changes the text. -/
theorem claim_C10 :
    ∀ (oracle : Option (String → String)) (facts : List AtomicFact)
      (response : String) (context : Option String),
      List.Forall₂ (fun f g => g.id = f.id ∧ g.source_text = f.source_text ∧
          g.is_relevant = f.is_relevant ∧ g.text = f.text)
        facts (check_containment oracle facts response) ∧
      List.Forall₂ (fun f g => g.id = f.id ∧ g.source_text = f.source_text ∧
          g.is_relevant = f.is_relevant)
        facts (self_contain_facts oracle facts response context) ∧
      (check_containment oracle facts response).length = facts.length ∧
      (self_contain_facts oracle facts response context).length = facts.length := by
  intro oracle facts response context
  have h1 : List.Forall₂ (fun f g => g.id = f.id ∧ g.source_text = f.source_text ∧
      g.is_relevant = f.is_relevant ∧ g.text = f.text)
      facts (check_containment oracle facts response) := by
    cases oracle with
    | none =>
      simp only [check_containment, checkBasic]
      rw [List.forall₂_map_right_iff, List.forall₂_same]
      exact fun x _ => ⟨rfl, rfl, rfl, rfl⟩
    | some gen =>
      simp only [check_containment, checkWithLLM]
      rw [List.forall₂_map_right_iff, List.forall₂_same]
      exact fun x _ => ⟨rfl, rfl, rfl, rfl⟩
  have h2 : List.Forall₂ (fun f g => g.id = f.id ∧ g.source_text = f.source_text ∧
      g.is_relevant = f.is_relevant)
      facts (self_contain_facts oracle facts response context) := by
    cases oracle with
    | none =>
      simp only [self_contain_facts]
      rw [List.forall₂_same]
      exact fun x _ => ⟨rfl, rfl, rfl⟩
    | some gen =>
      simp only [self_contain_facts]
      rw [List.forall₂_map_right_iff, List.forall₂_same]
      intro x _
      cases h : x.is_self_contained with
      | none => exact ⟨rfl, rfl, rfl⟩
      | some b => cases b <;> exact ⟨rfl, rfl, rfl⟩
  exact ⟨h1, h2, h1.length_eq.symm, h2.length_eq.symm⟩

/-! ## Deduplication lemmas and claims C2, C3 -/

theorem dedup_foldl_pairwise (t : ℚ) :
    ∀ (rest acc : List AtomicFact),
      acc.Pairwise (fun u v => ¬ t ≤ calculate_similarity v.text u.text) →
      (rest.foldl (dedupStep t) acc).Pairwise
        (fun u v => ¬ t ≤ calculate_similarity v.text u.text)
  | [], _, h => h
  | f :: rest, acc, h => by
    rw [List.foldl_cons]
    apply dedup_foldl_pairwise t rest
    unfold dedupStep
    by_cases hc : (acc.any fun u => decide (t ≤ calculate_similarity f.text u.text)) = true
    · rw [if_pos hc]; exact h
    · rw [if_neg hc]
      rw [List.pairwise_append]
      refine ⟨h, List.pairwise_singleton _ _, ?_⟩
      intro u hu v hv
      simp only [List.mem_singleton] at hv
      subst hv
      have hfalse := Bool.eq_false_iff.mpr hc
      rw [List.any_eq_false] at hfalse
      have := hfalse u hu
      simpa using this

theorem dedup_foldl_fix (t : ℚ) :
    ∀ (rest acc : List AtomicFact),
      (∀ v ∈ rest, ∀ u ∈ acc, ¬ t ≤ calculate_similarity v.text u.text) →
      rest.Pairwise (fun u v => ¬ t ≤ calculate_similarity v.text u.text) →
      rest.foldl (dedupStep t) acc = acc ++ rest
  | [], acc, _, _ => by simp
  | f :: rest, acc, hcross, hpw => by
    rw [List.foldl_cons]
    have hany : (acc.any fun u => decide (t ≤ calculate_similarity f.text u.text)) = false := by
      rw [List.any_eq_false]
      intro u hu
      simp only [decide_eq_true_eq]
      exact hcross f (by simp) u hu
    have hstep : dedupStep t acc f = acc ++ [f] := by
      unfold dedupStep
      rw [if_neg (by simp [hany])]
    rw [hstep]
    rw [dedup_foldl_fix t rest (acc ++ [f]) ?_ (List.pairwise_cons.mp hpw).2]
    · simp
    · intro v hv u hu
      rcases List.mem_append.mp hu with hua | huf
      · exact hcross v (by simp [hv]) u hua
      · simp only [List.mem_singleton] at huf
        subst huf
        exact (List.pairwise_cons.mp hpw).1 v hv

/-- Claim C2: deduplication is idempotent — re-running `deduplicate_facts` on
its own output, at the same threshold, returns the output unchanged. -/
theorem claim_C2 :
    ∀ (facts : List AtomicFact) (t : ℚ),
      deduplicate_facts (deduplicate_facts facts t) t = deduplicate_facts facts t := by
  intro facts t
  have hpw : (deduplicate_facts facts t).Pairwise
      (fun u v => ¬ t ≤ calculate_similarity v.text u.text) := by
    cases facts with
    | nil => simp [deduplicate_facts]
    | cons f rest => exact dedup_foldl_pairwise t rest [f] (List.pairwise_singleton _ _)
  cases h : deduplicate_facts facts t with
  | nil => rfl
  | cons g out =>
    rw [h] at hpw
    show deduplicate_facts (g :: out) t = g :: out
    have hout : deduplicate_facts (g :: out) t = out.foldl (dedupStep t) [g] := rfl
    rw [hout]
    rw [dedup_foldl_fix t out [g] ?_ (List.pairwise_cons.mp hpw).2]
    · simp
    · intro v hv u hu
      simp only [List.mem_singleton] at hu
      subst hu
      exact (List.pairwise_cons.mp hpw).1 v hv

theorem ratioQ_eval (a b : List Char) (m la lb : Nat)
    (hla : a.length = la) (hlb : b.length = lb)
    (hm : matchTotal a b (la + 1) 0 la 0 lb = m) (h0 : la + lb ≠ 0) :
    ratioQ a b = 2 * (m : ℚ) / ((la : ℚ) + (lb : ℚ)) := by
  simp only [ratioQ, hla, hlb, hm]
  rw [if_neg h0]

theorem sim_pppqqq_pq : calculate_similarity "pppqqq" "pq" = 1 / 2 := by
  have e1 : pyLower "pppqqq" = "pppqqq" := by decide
  have e2 : pyLower "pq" = "pq" := by decide
  have h := ratioQ_eval "pppqqq".data "pq".data 2 6 2 rfl rfl (by decide) (by decide)
  simp only [calculate_similarity, e1, e2, h]
  norm_num

theorem sim_ppp_pq : calculate_similarity "ppp" "pq" = 2 / 5 := by
  have e1 : pyLower "ppp" = "ppp" := by decide
  have e2 : pyLower "pq" = "pq" := by decide
  have h := ratioQ_eval "ppp".data "pq".data 1 3 2 rfl rfl (by decide) (by decide)
  simp only [calculate_similarity, e1, e2, h]
  norm_num

theorem sim_ppp_pppqqq : calculate_similarity "ppp" "pppqqq" = 2 / 3 := by
  have e1 : pyLower "ppp" = "ppp" := by decide
  have e2 : pyLower "pppqqq" = "pppqqq" := by decide
  have h := ratioQ_eval "ppp".data "pppqqq".data 3 3 6 rfl rfl (by decide) (by decide)
  simp only [calculate_similarity, e1, e2, h]
  norm_num

theorem sim_qqq_pq : calculate_similarity "qqq" "pq" = 2 / 5 := by
  have e1 : pyLower "qqq" = "qqq" := by decide
  have e2 : pyLower "pq" = "pq" := by decide
  have h := ratioQ_eval "qqq".data "pq".data 1 3 2 rfl rfl (by decide) (by decide)
  simp only [calculate_similarity, e1, e2, h]
  norm_num

theorem sim_qqq_ppp : calculate_similarity "qqq" "ppp" = 0 := by
  have e1 : pyLower "qqq" = "qqq" := by decide
  have e2 : pyLower "ppp" = "ppp" := by decide
  have h := ratioQ_eval "qqq".data "ppp".data 0 3 3 rfl rfl (by decide) (by decide)
  simp only [calculate_similarity, e1, e2, h]
  norm_num

theorem sim_qqq_pppqqq : calculate_similarity "qqq" "pppqqq" = 2 / 3 := by
  have e1 : pyLower "qqq" = "qqq" := by decide
  have e2 : pyLower "pppqqq" = "pppqqq" := by decide
  have h := ratioQ_eval "qqq".data "pppqqq".data 3 3 6 rfl rfl (by decide) (by decide)
  simp only [calculate_similarity, e1, e2, h]
  norm_num

theorem dedupCex_len_half :
    (deduplicate_facts thresholdCexFacts (1 / 2)).length = 3 := by
  norm_num [thresholdCexFacts, deduplicate_facts, mkFact, dedupStep,
    List.any_cons, List.any_nil, Bool.or_eq_true, decide_eq_true_eq,
    sim_pppqqq_pq, sim_ppp_pq, sim_ppp_pppqqq, sim_qqq_pq, sim_qqq_ppp,
    sim_qqq_pppqqq]

theorem dedupCex_len_threeFifths :
    (deduplicate_facts thresholdCexFacts (3 / 5)).length = 2 := by
  norm_num [thresholdCexFacts, deduplicate_facts, mkFact, dedupStep,
    List.any_cons, List.any_nil, Bool.or_eq_true, decide_eq_true_eq,
    sim_pppqqq_pq, sim_ppp_pq, sim_ppp_pppqqq, sim_qqq_pq, sim_qqq_ppp,
    sim_qqq_pppqqq]

/-- Counterexample to claim C3: on the four concrete facts of
`thresholdCexFacts`, raising the threshold from `1/2` to `3/5` shrinks the
number of retained facts from 3 to 2, so deduplication is not monotone in the
threshold. -/
theorem claim_C3_counterexample :
    (1 : ℚ) / 2 ≤ 3 / 5 ∧
    (deduplicate_facts thresholdCexFacts (3 / 5)).length <
      (deduplicate_facts thresholdCexFacts (1 / 2)).length := by
  constructor
  · norm_num
  · rw [dedupCex_len_half, dedupCex_len_threeFifths]
    omega

/-- Claim C3 (amended): threshold monotonicity of the retained-fact count
holds for inputs of at most three facts (the counterexample needs four); for
fixed input of length at most 3 and thresholds `t1 ≤ t2`, the count retained
at `t2` is at least the count retained at `t1`. -/
theorem claim_C3_amended :
    ∀ (facts : List AtomicFact) (t1 t2 : ℚ), facts.length ≤ 3 → t1 ≤ t2 →
      (deduplicate_facts facts t1).length ≤ (deduplicate_facts facts t2).length := by
  intro facts t1 t2 hlen ht
  rcases facts with _ | ⟨a, _ | ⟨b, _ | ⟨c, _ | ⟨d, rest⟩⟩⟩⟩
  · simp [deduplicate_facts]
  · simp [deduplicate_facts]
  · have e : ∀ t : ℚ, (deduplicate_facts [a, b] t).length =
        if t ≤ calculate_similarity b.text a.text then 1 else 2 := by
      intro t
      simp only [deduplicate_facts, List.foldl_cons, List.foldl_nil, dedupStep,
        List.any_cons, List.any_nil, Bool.or_false, decide_eq_true_eq]
      split_ifs <;> simp
    rw [e t1, e t2]
    split_ifs <;> first | omega | (exfalso; linarith)
  · have e : ∀ t : ℚ, (deduplicate_facts [a, b, c] t).length =
        if t ≤ calculate_similarity b.text a.text then
          (if t ≤ calculate_similarity c.text a.text then 1 else 2)
        else
          (if t ≤ calculate_similarity c.text a.text ∨
              t ≤ calculate_similarity c.text b.text then 2 else 3) := by
      intro t
      simp only [deduplicate_facts, List.foldl_cons, List.foldl_nil, dedupStep,
        List.any_cons, List.any_nil, Bool.or_false, decide_eq_true_eq]
      rcases le_or_lt t (calculate_similarity b.text a.text) with h1 | h1
      · rw [if_pos h1, if_pos h1]
        simp only [List.any_cons, List.any_nil, Bool.or_false, decide_eq_true_eq]
        split_ifs <;> simp
      · rw [if_neg (not_le.mpr h1), if_neg (not_le.mpr h1)]
        simp only [List.cons_append, List.nil_append, List.any_cons, List.any_nil,
          Bool.or_false, Bool.or_eq_true, decide_eq_true_eq]
        split_ifs <;> simp
    rw [e t1, e t2]
    split_ifs <;>
      first
        | omega
        | (exfalso; push_neg at *; (try casesm* _ ∨ _) <;> linarith)
  · simp only [List.length_cons] at hlen
    omega

/-- Witness for the amended claim C3, at a singleton input and equal
thresholds. -/
theorem claim_C3_amended_witness :
    (deduplicate_facts [mkFact "x"] (1 / 2)).length ≤
      (deduplicate_facts [mkFact "x"] (1 / 2)).length :=
  claim_C3_amended [mkFact "x"] (1 / 2) (1 / 2) (by simp) (le_refl _)

/-- Witness for C7: the membership hypothesis discharged at the first
extracted fact of the concrete input. -/
theorem claim_C7_witness :
    ({ id := "i", text := "First fact",
       source_text := "First fact. Second fact." } : AtomicFact).source_text =
      "First fact. Second fact." :=
  (claim_C7.2 (fun _ => "i")).2 _ (by decide)

theorem length_dropWhile_le {α : Type} (p : α → Bool) :
    ∀ l : List α, (l.dropWhile p).length ≤ l.length
  | [] => le_refl _
  | x :: xs => by
    rw [List.dropWhile_cons]
    by_cases h : p x
    · rw [if_pos h]
      exact (length_dropWhile_le p xs).trans (by simp)
    · rw [if_neg h]

theorem pyStrip_data (s : String) :
    (pyStrip s).data = List.rdropWhile isPySpace (s.data.dropWhile isPySpace) := rfl

theorem dropWhile_rdropWhile_dropWhile (d : List Char) :
    (List.rdropWhile isPySpace (d.dropWhile isPySpace)).dropWhile isPySpace =
      List.rdropWhile isPySpace (d.dropWhile isPySpace) := by
  cases hX : List.rdropWhile isPySpace (d.dropWhile isPySpace) with
  | nil => simp
  | cons x xs =>
    obtain ⟨t, ht⟩ := List.rdropWhile_prefix isPySpace (d.dropWhile isPySpace)
    rw [hX] at ht
    have hY : d.dropWhile isPySpace = x :: (xs ++ t) := by
      rw [← ht]; simp
    have hpx : isPySpace x = false := by
      have hidem := List.dropWhile_idempotent isPySpace d
      rw [hY, List.dropWhile_cons] at hidem
      by_cases hx : isPySpace x = true
      · rw [if_pos hx] at hidem
        have hlen := congrArg List.length hidem
        simp only [List.length_cons] at hlen
        have := length_dropWhile_le isPySpace (xs ++ t)
        omega
      · simpa using hx
    rw [List.dropWhile_cons, hpx]
    simp

theorem pyStrip_idem (s : String) : pyStrip (pyStrip s) = pyStrip s := by
  apply String.ext
  rw [pyStrip_data (pyStrip s), pyStrip_data s]
  rw [dropWhile_rdropWhile_dropWhile]
  exact List.rdropWhile_idempotent _ _

theorem pyStrip_eq_self (s : String) (h : pyStrip s = s) :
    s.data.dropWhile isPySpace = s.data ∧
      List.rdropWhile isPySpace s.data = s.data := by
  have hd : List.rdropWhile isPySpace (s.data.dropWhile isPySpace) = s.data := by
    have := congrArg String.data h
    rwa [pyStrip_data] at this
  have hlen1 : (s.data.dropWhile isPySpace).length ≤ s.data.length :=
    length_dropWhile_le _ _
  have hlen2 : (List.rdropWhile isPySpace (s.data.dropWhile isPySpace)).length ≤
      (s.data.dropWhile isPySpace).length :=
    (List.rdropWhile_prefix _ _).length_le
  have hlen : (s.data.dropWhile isPySpace).length = s.data.length := by
    rw [hd] at hlen2
    omega
  have hdw : s.data.dropWhile isPySpace = s.data :=
    (List.dropWhile_suffix isPySpace).eq_of_length hlen
  rw [hdw] at hd
  exact ⟨hdw, hd⟩

theorem processLine_eq_some (raw l : String) (h : processLine raw = some l) :
    pyStrip l = l ∧ l ≠ "" := by
  simp only [processLine] at h
  by_cases hG : ((pyStrip (lstripChar '*' (lstripChar '-' (lstripChar '•' (pyStrip raw)))) ≠ "" : Bool) &&
      decide (2 < (pyStrip (lstripChar '*' (lstripChar '-' (lstripChar '•' (pyStrip raw))))).data.length) &&
      (match (pyStrip (lstripChar '*' (lstripChar '-' (lstripChar '•' (pyStrip raw))))).data.head? with
        | some c => c.isDigit | none => false) &&
      (". ".data.isPrefixOf ((pyStrip (lstripChar '*' (lstripChar '-' (lstripChar '•' (pyStrip raw))))).data.drop 1))) = true
  · rw [if_pos hG] at h
    by_cases h0 : pyStrip (String.mk (((pyStrip (lstripChar '*' (lstripChar '-' (lstripChar '•' (pyStrip raw))))).data.dropWhile (fun c => decide (c ≠ '.'))).drop 1)) = ""
    · rw [if_pos h0] at h
      exact absurd h (by simp)
    · rw [if_neg h0] at h
      have hl := Option.some.inj h
      subst hl
      exact ⟨pyStrip_idem _, h0⟩
  · rw [if_neg hG] at h
    by_cases h0 : pyStrip (lstripChar '*' (lstripChar '-' (lstripChar '•' (pyStrip raw)))) = ""
    · rw [if_pos h0] at h
      exact absurd h (by simp)
    · rw [if_neg h0] at h
      have hl := Option.some.inj h
      subst hl
      exact ⟨pyStrip_idem _, h0⟩

theorem isPrefixOf_test (d : List Char) : (['.', ' '].isPrefixOf ('.' :: ' ' :: d)) = true := by
  simp [List.isPrefixOf]

theorem map_fst_enumFrom {α : Type} :
    ∀ (n : Nat) (l : List α), (l.enumFrom n).map Prod.fst = List.range' n l.length
  | _, [] => rfl
  | n, x :: xs => by
    simp only [List.enumFrom, List.map_cons, List.length_cons, List.range'_succ,
      List.cons.injEq, true_and]
    exact map_fst_enumFrom (n + 1) xs

theorem map_fst_enum {α : Type} (l : List α) : l.enum.map Prod.fst = List.range l.length := by
  rw [List.range_eq_range']
  exact map_fst_enumFrom 0 l

theorem map_pyStrip_self (L : List String) (h : ∀ x ∈ L, pyStrip x = x) :
    L.map pyStrip = L := by
  induction L with
  | nil => rfl
  | cons a as ih =>
    rw [List.map_cons, h a (by simp), ih (fun x hx => h x (by simp [hx]))]

theorem parseFacts_mem (result : String) (x : String) (hx : x ∈ parseFacts result) :
    pyStrip x = x ∧ x ≠ "" := by
  obtain ⟨raw, _, hpl⟩ := List.mem_filterMap.mp hx
  exact processLine_eq_some raw x hpl

theorem parseFacts_filter (result : String) :
    (parseFacts result).filter (fun f => pyStrip f ≠ "") = parseFacts result := by
  apply List.filter_eq_self.mpr
  intro x hx
  obtain ⟨hs, hne⟩ := parseFacts_mem result x hx
  simp [hs, hne]

theorem extract_with_llm_map_text (idGen : Nat → String) (response result : String) :
    (extract_with_llm idGen response result).map (fun f => f.text) = parseFacts result := by
  simp only [extract_with_llm]
  rw [parseFacts_filter, List.map_map]
  have hfn : ((fun f : AtomicFact => f.text) ∘
      (fun p : Nat × String =>
        ({ id := idGen p.1, text := pyStrip p.2, source_text := response } : AtomicFact))) =
      (pyStrip ∘ Prod.snd) := rfl
  rw [hfn, ← List.map_map, map_snd_enum]
  exact map_pyStrip_self _ (fun x hx => (parseFacts_mem result x hx).1)

theorem extract_with_llm_map_id (idGen : Nat → String) (response result : String) :
    (extract_with_llm idGen response result).map (fun f => f.id) =
      (List.range (parseFacts result).length).map idGen := by
  simp only [extract_with_llm]
  rw [parseFacts_filter, List.map_map]
  have hfn : ((fun f : AtomicFact => f.id) ∘
      (fun p : Nat × String =>
        ({ id := idGen p.1, text := pyStrip p.2, source_text := response } : AtomicFact))) =
      (idGen ∘ Prod.fst) := rfl
  rw [hfn, ← List.map_map, map_fst_enum]

theorem isDigit_facts (c : Char) (h : c.isDigit = true) :
    c ≠ '•' ∧ c ≠ '-' ∧ c ≠ '*' ∧ c ≠ '.' ∧ isPySpace c = false := by
  refine ⟨?_, ?_, ?_, ?_, ?_⟩
  · intro heq; exact absurd (heq ▸ h) (by decide)
  · intro heq; exact absurd (heq ▸ h) (by decide)
  · intro heq; exact absurd (heq ▸ h) (by decide)
  · intro heq; exact absurd (heq ▸ h) (by decide)
  · by_contra hc
    have hc2 : isPySpace c = true := by
      cases hcc : isPySpace c
      · exact absurd hcc hc
      · rfl
    simp only [isPySpace, Bool.or_eq_true, decide_eq_true_eq] at hc2
    rcases hc2 with ((((h1 | h1) | h1) | h1) | h1) | h1 <;>
      (subst h1; exact absurd h (by decide))

theorem pyStrip_X (c : Char) (d : List Char) (hcd : isPySpace c = false)
    (hd : d ≠ []) (hlast : ∀ hdd : d ≠ [], isPySpace (d.getLast hdd) = false) :
    pyStrip (String.mk (c :: '.' :: ' ' :: d)) = String.mk (c :: '.' :: ' ' :: d) := by
  apply String.ext
  rw [pyStrip_data]
  show List.rdropWhile isPySpace ((c :: '.' :: ' ' :: d).dropWhile isPySpace) =
    c :: '.' :: ' ' :: d
  rw [List.dropWhile_cons, hcd]
  simp only [Bool.false_eq_true, if_false]
  rw [List.rdropWhile_eq_self_iff]
  intro hl
  have h1 : ('.' :: ' ' :: d) ≠ [] := by simp
  have h2 : (' ' :: d) ≠ [] := by simp
  rw [List.getLast_cons h1, List.getLast_cons h2, List.getLast_cons hd]
  rw [hlast hd]
  simp

theorem lstripChar_no (ch c : Char) (r : List Char) (h : c ≠ ch) :
    lstripChar ch (String.mk (c :: r)) = String.mk (c :: r) := by
  simp only [lstripChar]
  rw [List.dropWhile_cons]
  rw [show (decide (c = ch)) = false from decide_eq_false h]
  simp

theorem processLine_digit (c : Char) (rest : String)
    (hc : c.isDigit = true) (hr : pyStrip rest = rest) (hne : rest ≠ "") :
    processLine (String.mk (c :: '.' :: ' ' :: rest.data)) = some rest := by
  obtain ⟨hb1, hb2, hb3, hdot, hsp⟩ := isDigit_facts c hc
  have hdne : rest.data ≠ [] := by
    intro hdd
    exact hne (String.ext hdd)
  have hlast : ∀ hdd : rest.data ≠ [], isPySpace (rest.data.getLast hdd) = false := by
    intro hdd
    have h2 := (pyStrip_eq_self rest hr).2
    rw [List.rdropWhile_eq_self_iff] at h2
    have := h2 hdd
    cases hcc : isPySpace (rest.data.getLast hdd)
    · rfl
    · exact absurd hcc this
  have hA := pyStrip_X c rest.data hsp hdne hlast
  simp only [processLine]
  rw [hA, lstripChar_no '•' c _ hb1, lstripChar_no '-' c _ hb2,
    lstripChar_no '*' c _ hb3, hA]
  have hguard : ((String.mk (c :: '.' :: ' ' :: rest.data) ≠ "" : Bool) &&
      decide (2 < (String.mk (c :: '.' :: ' ' :: rest.data)).data.length) &&
      (match (String.mk (c :: '.' :: ' ' :: rest.data)).data.head? with
        | some x => x.isDigit | none => false) &&
      (". ".data.isPrefixOf ((String.mk (c :: '.' :: ' ' :: rest.data)).data.drop 1))) = true := by
    have g1 : (String.mk (c :: '.' :: ' ' :: rest.data) ≠ "" : Bool) = true := by
      apply decide_eq_true
      intro heq
      have := congrArg String.data heq
      simp at this
    have g2 : decide (2 < (String.mk (c :: '.' :: ' ' :: rest.data)).data.length) = true := by
      apply decide_eq_true
      simp
    have g4 : (". ".data.isPrefixOf
        ((String.mk (c :: '.' :: ' ' :: rest.data)).data.drop 1)) = true := by
      show (['.', ' '].isPrefixOf ('.' :: ' ' :: rest.data)) = true
      exact isPrefixOf_test rest.data
    rw [g1, g2, g4]
    show (true && true && c.isDigit && true) = true
    rw [hc]
    rfl
  rw [if_pos hguard]
  have hdrop : (((String.mk (c :: '.' :: ' ' :: rest.data)).data.dropWhile
      (fun y => decide (y ≠ '.'))).drop 1) = ' ' :: rest.data := by
    show (((c :: '.' :: ' ' :: rest.data).dropWhile (fun y => decide (y ≠ '.'))).drop 1) =
      ' ' :: rest.data
    rw [List.dropWhile_cons]
    rw [show (decide (c ≠ '.')) = true from decide_eq_true hdot]
    rw [List.dropWhile_cons]
    rw [show (decide (('.' : Char) ≠ '.')) = false from by simp]
    simp
  rw [hdrop]
  have hfinal : pyStrip (String.mk (' ' :: rest.data)) = rest := by
    apply String.ext
    rw [pyStrip_data]
    show List.rdropWhile isPySpace ((' ' :: rest.data).dropWhile isPySpace) = rest.data
    rw [List.dropWhile_cons]
    rw [show isPySpace ' ' = true from rfl]
    simp only [if_true]
    rw [(pyStrip_eq_self rest hr).1, (pyStrip_eq_self rest hr).2]
  rw [hfinal]
  rw [if_neg hne]

theorem pyStrip_cons_self (c : Char) (d : List Char) (hc : isPySpace c = false)
    (hlast : ∀ h : (c :: d) ≠ [], isPySpace ((c :: d).getLast h) = false) :
    pyStrip (String.mk (c :: d)) = String.mk (c :: d) := by
  apply String.ext
  rw [pyStrip_data]
  show List.rdropWhile isPySpace ((c :: d).dropWhile isPySpace) = c :: d
  rw [List.dropWhile_cons, hc]
  simp only [Bool.false_eq_true, if_false]
  rw [List.rdropWhile_eq_self_iff]
  intro hl
  rw [hlast hl]
  simp

theorem pyStrip_space_cons (rest : String) (hr : pyStrip rest = rest) :
    pyStrip (String.mk (' ' :: rest.data)) = rest := by
  apply String.ext
  rw [pyStrip_data]
  show List.rdropWhile isPySpace ((' ' :: rest.data).dropWhile isPySpace) = rest.data
  rw [List.dropWhile_cons]
  rw [show isPySpace ' ' = true from rfl]
  simp only [if_true]
  rw [(pyStrip_eq_self rest hr).1, (pyStrip_eq_self rest hr).2]

theorem lstripChar_once (ch c : Char) (r : List Char) (h : c ≠ ch) :
    lstripChar ch (String.mk (ch :: c :: r)) = String.mk (c :: r) := by
  simp only [lstripChar]
  rw [List.dropWhile_cons]
  rw [show (decide (ch = ch)) = true from decide_eq_true rfl]
  simp only [if_true]
  rw [List.dropWhile_cons]
  rw [show (decide (c = ch)) = false from decide_eq_false h]
  simp

theorem getLast_cons_cons (b : Char) (rest : String) (hdne : rest.data ≠ [])
    (hlast : ∀ hdd : rest.data ≠ [], isPySpace (rest.data.getLast hdd) = false) :
    ∀ h : (b :: ' ' :: rest.data) ≠ [],
      isPySpace ((b :: ' ' :: rest.data).getLast h) = false := by
  intro h
  have h2 : (' ' :: rest.data) ≠ [] := by simp
  rw [List.getLast_cons h2, List.getLast_cons hdne]
  exact hlast hdne

theorem rest_last_facts (rest : String) (hr : pyStrip rest = rest) (hne : rest ≠ "") :
    rest.data ≠ [] ∧
      ∀ hdd : rest.data ≠ [], isPySpace (rest.data.getLast hdd) = false := by
  have hdne : rest.data ≠ [] := fun hdd => hne (String.ext hdd)
  refine ⟨hdne, fun hdd => ?_⟩
  have h2 := (pyStrip_eq_self rest hr).2
  rw [List.rdropWhile_eq_self_iff] at h2
  have := h2 hdd
  cases hcc : isPySpace (rest.data.getLast hdd)
  · rfl
  · exact absurd hcc this

theorem processLine_bullet (b : Char) (rest : String)
    (hb : b = '•' ∨ b = '-' ∨ b = '*')
    (hr : pyStrip rest = rest) (hne : rest ≠ "")
    (hdig : (match rest.data.head? with
      | some c => c.isDigit | none => false) = false) :
    processLine (String.mk (b :: ' ' :: rest.data)) = some rest := by
  obtain ⟨hdne, hlast⟩ := rest_last_facts rest hr hne
  have hbs : isPySpace b = false := by
    rcases hb with rfl | rfl | rfl <;> rfl
  have hA : pyStrip (String.mk (b :: ' ' :: rest.data)) =
      String.mk (b :: ' ' :: rest.data) :=
    pyStrip_cons_self b (' ' :: rest.data) hbs
      (getLast_cons_cons b rest hdne hlast)
  have hl2 : pyStrip (lstripChar '*' (lstripChar '-' (lstripChar '•'
      (String.mk (b :: ' ' :: rest.data))))) = rest := by
    rcases hb with rfl | rfl | rfl
    · rw [lstripChar_once '•' ' ' rest.data (by decide),
        lstripChar_no '-' ' ' _ (by decide), lstripChar_no '*' ' ' _ (by decide)]
      exact pyStrip_space_cons rest hr
    · rw [lstripChar_no '•' '-' _ (by decide),
        lstripChar_once '-' ' ' rest.data (by decide),
        lstripChar_no '*' ' ' _ (by decide)]
      exact pyStrip_space_cons rest hr
    · rw [lstripChar_no '•' '*' _ (by decide), lstripChar_no '-' '*' _ (by decide),
        lstripChar_once '*' ' ' rest.data (by decide)]
      exact pyStrip_space_cons rest hr
  simp only [processLine]
  rw [hA, hl2]
  have hguard : ((rest ≠ "" : Bool) && decide (2 < rest.data.length) &&
      (match rest.data.head? with | some c => c.isDigit | none => false) &&
      (". ".data.isPrefixOf (rest.data.drop 1))) = false := by
    rw [hdig]
    simp
  have hng : ¬ (((rest ≠ "" : Bool) && decide (2 < rest.data.length) &&
      (match rest.data.head? with | some c => c.isDigit | none => false) &&
      (". ".data.isPrefixOf (rest.data.drop 1))) = true) := by
    rw [hguard]
    exact Bool.false_ne_true
  rw [if_neg hng]
  try rw [if_neg hne]

theorem processLine_plain (s : String) (hr : pyStrip s = s) (hne : s ≠ "")
    (hhead : (match s.data.head? with
      | some c => (c = '•' : Bool) || (c = '-' : Bool) || (c = '*' : Bool) || c.isDigit
      | none => false) = false) :
    processLine s = some s := by
  obtain ⟨l⟩ := s
  cases l with
  | nil =>
    exact absurd (String.ext rfl) hne
  | cons c r =>
    have hh : ((c = '•' : Bool) || (c = '-' : Bool) || (c = '*' : Bool) ||
        c.isDigit) = false := hhead
    simp only [Bool.or_eq_false_iff] at hh
    obtain ⟨⟨⟨h1, h2⟩, h3⟩, h4⟩ := hh
    have hb1 : c ≠ '•' := of_decide_eq_false h1
    have hb2 : c ≠ '-' := of_decide_eq_false h2
    have hb3 : c ≠ '*' := of_decide_eq_false h3
    simp only [processLine]
    rw [hr]
    rw [lstripChar_no '•' c r hb1, lstripChar_no '-' c r hb2,
      lstripChar_no '*' c r hb3, hr]
    have hguard : ((String.mk (c :: r) ≠ "" : Bool) &&
        decide (2 < (String.mk (c :: r)).data.length) &&
        (match (String.mk (c :: r)).data.head? with
          | some x => x.isDigit | none => false) &&
        (". ".data.isPrefixOf ((String.mk (c :: r)).data.drop 1))) = false := by
      have hm : (match (String.mk (c :: r)).data.head? with
          | some x => x.isDigit | none => false) = c.isDigit := rfl
      rw [hm, h4]
      simp
    have hng : ¬ (((String.mk (c :: r) ≠ "" : Bool) &&
        decide (2 < (String.mk (c :: r)).data.length) &&
        (match (String.mk (c :: r)).data.head? with
          | some x => x.isDigit | none => false) &&
        (". ".data.isPrefixOf ((String.mk (c :: r)).data.drop 1))) = true) := by
      rw [hguard]
      exact Bool.false_ne_true
    rw [if_neg hng]
    try rw [if_neg hne]

/-- Counterexample to claim C9: the generator output "12. Alpha" keeps its
two-digit enumeration prefix — the source only strips a prefix whose first
character is a single digit followed by ". ", so the claimed
"any number of leading digits" parsing is wrong. -/
theorem claim_C9_counterexample :
    ((extract_with_llm (fun _ => "id0") "resp" "12. Alpha").map (fun f => f.text) =
      ["12. Alpha"]) ∧ ("12. Alpha" : String) ≠ "Alpha" := by
  constructor
  · decide
  · decide

/-- Claim C9 (amended): with a claim generator configured, the extractor
strips the generator output and splits it on line breaks; each line is
stripped, its leading bullet markers are removed (a run of `•`, then a run
of `-`, then a run of `*`, in that fixed order) and it is stripped again,
then a leading enumeration prefix consisting of a single digit followed by
". " is removed; lines that become empty are discarded and each surviving
line becomes one `AtomicFact` with a freshly supplied id and `source_text`
equal to the response.  In particular a line "b rest" with bullet marker b
yields rest, a line "d. rest" with a single digit d yields rest, and a
stripped line opening with no marker is kept verbatim. -/
theorem claim_C9_amended :
    (∀ (idGen : Nat → String) (response result : String),
      ((extract_with_llm idGen response result).map (fun f => f.text) =
        (pySplit '\n' (pyStrip result)).filterMap processLine) ∧
      (∀ f ∈ extract_with_llm idGen response result, f.source_text = response) ∧
      ((extract_with_llm idGen response result).map (fun f => f.id) =
        (List.range (parseFacts result).length).map idGen) ∧
      "" ∉ parseFacts result) ∧
    (∀ (b : Char) (rest : String), b = '•' ∨ b = '-' ∨ b = '*' →
      pyStrip rest = rest → rest ≠ "" →
      (match rest.data.head? with | some c => c.isDigit | none => false) = false →
      processLine (String.mk (b :: ' ' :: rest.data)) = some rest) ∧
    (∀ (c : Char) (rest : String), c.isDigit = true → pyStrip rest = rest → rest ≠ "" →
      processLine (String.mk (c :: '.' :: ' ' :: rest.data)) = some rest) ∧
    (∀ (s : String), pyStrip s = s → s ≠ "" →
      (match s.data.head? with
        | some c => (c = '•' : Bool) || (c = '-' : Bool) || (c = '*' : Bool) || c.isDigit
        | none => false) = false →
      processLine s = some s) ∧
    (parseFacts "• A\n- B\n* C\n3. D\n\n12. E" = ["A", "B", "C", "D", "12. E"]) := by
  refine ⟨?_, processLine_bullet, processLine_digit, processLine_plain, by decide⟩
  intro idGen response result
  refine ⟨extract_with_llm_map_text idGen response result, ?_,
    extract_with_llm_map_id idGen response result, ?_⟩
  · intro f hf
    simp only [extract_with_llm, List.mem_map] at hf
    obtain ⟨p, _, rfl⟩ := hf
    rfl
  · intro hmem
    exact (parseFacts_mem result "" hmem).2 rfl

/-- Witness for the amended claim C9: the bullet rule, the single-digit
enumeration rule and the verbatim rule at concrete lines. -/
theorem claim_C9_amended_witness :
    processLine (String.mk ('•' :: ' ' :: "Cat".data)) = some "Cat" ∧
    processLine (String.mk ('3' :: '.' :: ' ' :: "Dog".data)) = some "Dog" ∧
    processLine "Emu" = some "Emu" :=
  ⟨claim_C9_amended.2.1 '•' "Cat" (Or.inl rfl) (by decide) (by decide) (by decide),
   claim_C9_amended.2.2.1 '3' "Dog" (by decide) (by decide) (by decide),
   claim_C9_amended.2.2.2.1 "Emu" (by decide) (by decide) (by decide)⟩

theorem lookup_mem {k v : Nat} : ∀ {l : J2Len}, List.lookup k l = some v → (k, v) ∈ l
  | [], h => by simp [List.lookup] at h
  | (k', v') :: l, h => by
    rw [List.lookup] at h
    by_cases hk : (k == k') = true
    · rw [hk] at h
      have hv := Option.some.inj h
      have hkk : k = k' := by simpa using hk
      subst hkk; subst hv
      simp
    · rw [Bool.eq_false_iff.mpr hk] at h
      exact List.mem_cons_of_mem _ (lookup_mem h)

theorem mem_jsIn {b : List Char} {c : Char} {blo bhi j : Nat}
    (h : j ∈ jsIn b c blo bhi) :
    blo ≤ j ∧ j < bhi ∧ b.get? j = some c ∧ popularB b c = false := by
  simp only [jsIn, b2j, List.mem_filter] at h
  obtain ⟨hmem, hwin⟩ := h
  by_cases hpop : popularB b c = true
  · rw [if_pos hpop] at hmem
    simp at hmem
  · rw [if_neg hpop] at hmem
    simp only [b2jAll, List.mem_filter, List.mem_range, decide_eq_true_eq] at hmem
    simp only [Bool.and_eq_true, decide_eq_true_eq] at hwin
    exact ⟨hwin.1, hwin.2, hmem.2, Bool.eq_false_iff.mpr hpop⟩

theorem innerLoop_sound (a b : List Char) (alo ahi blo bhi : Nat) (i : Nat) (c : Char)
    (hai : a.get? i = some c) (hia : alo ≤ i) (hih : i < ahi) (j2 : J2Len)
    (hprev : ∀ p ∈ j2, blo ≤ p.1 ∧ p.1 < bhi ∧ 1 ≤ p.2 ∧ p.2 + blo ≤ p.1 + 1 ∧
      p.2 + alo ≤ i ∧ (∀ m, m < p.2 →
        ∃ ch, a.get? (i - 1 - m) = some ch ∧ b.get? (p.1 - m) = some ch)) :
    ∀ (js : List Nat) (acc : J2Len) (best : Nat × Nat × Nat),
      (∀ j ∈ js, blo ≤ j ∧ j < bhi ∧ b.get? j = some c) →
      (∀ p ∈ acc, blo ≤ p.1 ∧ p.1 < bhi ∧ 1 ≤ p.2 ∧ p.2 + blo ≤ p.1 + 1 ∧
        p.2 + alo ≤ i + 1 ∧ (∀ m, m < p.2 →
          ∃ ch, a.get? (i - m) = some ch ∧ b.get? (p.1 - m) = some ch)) →
      (best = (alo, blo, 0) ∨ (alo ≤ best.1 ∧ blo ≤ best.2.1 ∧ 1 ≤ best.2.2 ∧
        best.1 + best.2.2 ≤ ahi ∧ best.2.1 + best.2.2 ≤ bhi ∧
        matchRun a b best.1 best.2.1 best.2.2)) →
      (∀ p ∈ (innerLoop j2 i js acc best).1, blo ≤ p.1 ∧ p.1 < bhi ∧ 1 ≤ p.2 ∧
        p.2 + blo ≤ p.1 + 1 ∧ p.2 + alo ≤ i + 1 ∧ (∀ m, m < p.2 →
          ∃ ch, a.get? (i - m) = some ch ∧ b.get? (p.1 - m) = some ch)) ∧
      ((innerLoop j2 i js acc best).2 = (alo, blo, 0) ∨
        (alo ≤ (innerLoop j2 i js acc best).2.1 ∧
         blo ≤ (innerLoop j2 i js acc best).2.2.1 ∧
         1 ≤ (innerLoop j2 i js acc best).2.2.2 ∧
         (innerLoop j2 i js acc best).2.1 + (innerLoop j2 i js acc best).2.2.2 ≤ ahi ∧
         (innerLoop j2 i js acc best).2.2.1 + (innerLoop j2 i js acc best).2.2.2 ≤ bhi ∧
         matchRun a b (innerLoop j2 i js acc best).2.1
           (innerLoop j2 i js acc best).2.2.1 (innerLoop j2 i js acc best).2.2.2))
  | [], acc, best, _, hacc, hbest => ⟨hacc, by
      rcases best with ⟨bi, bj, bs⟩
      exact hbest⟩
  | j :: js, acc, best, hjs, hacc, hbest => by
    rcases best with ⟨bi, bj, bs⟩
    obtain ⟨hjlo, hjhi, hbj⟩ := hjs j (by simp)
    have hrun : ∀ m, m < lkPred j2 j + 1 →
        ∃ ch, a.get? (i - m) = some ch ∧ b.get? (j - m) = some ch := by
      by_cases hj0 : j = 0
      · subst hj0
        have h0 : lkPred j2 0 = 0 := by simp [lkPred]
        rw [h0]
        intro m hm
        have hm0 : m = 0 := by omega
        subst hm0
        exact ⟨c, by simpa using hai, by simpa using hbj⟩
      · rw [lkPred, if_neg hj0]
        rcases hlk : List.lookup (j - 1) j2 with _ | k0
        · have h0 : lk j2 (j - 1) = 0 := by simp [lk, hlk]
          rw [h0]
          intro m hm
          have hm0 : m = 0 := by omega
          subst hm0
          exact ⟨c, by simpa using hai, by simpa using hbj⟩
        · have h0 : lk j2 (j - 1) = k0 := by simp [lk, hlk]
          rw [h0]
          obtain ⟨hp1, hp2, hp3, hp4, hp5, hp6⟩ := hprev (j - 1, k0) (lookup_mem hlk)
          simp only at hp1 hp2 hp3 hp4 hp5 hp6
          intro m hm
          rcases m with _ | m'
          · exact ⟨c, by simpa using hai, by simpa using hbj⟩
          · have hm' : m' < k0 := by omega
            obtain ⟨ch, hach, hbch⟩ := hp6 m' hm'
            refine ⟨ch, ?_, ?_⟩
            · have he : i - (m' + 1) = i - 1 - m' := by omega
              rwa [he]
            · have he : j - (m' + 1) = j - 1 - m' := by omega
              rwa [he]
    have hb1 : lkPred j2 j + 1 + blo ≤ j + 1 := by
      by_cases hj0 : j = 0
      · subst hj0
        have h0 : lkPred j2 0 = 0 := by simp [lkPred]
        omega
      · rw [lkPred, if_neg hj0]
        rcases hlk : List.lookup (j - 1) j2 with _ | k0
        · have h0 : lk j2 (j - 1) = 0 := by simp [lk, hlk]
          omega
        · have h0 : lk j2 (j - 1) = k0 := by simp [lk, hlk]
          obtain ⟨hp1, hp2, hp3, hp4, hp5, hp6⟩ := hprev (j - 1, k0) (lookup_mem hlk)
          simp only at hp1 hp2 hp3 hp4 hp5 hp6
          omega
    have hb2 : lkPred j2 j + 1 + alo ≤ i + 1 := by
      by_cases hj0 : j = 0
      · subst hj0
        have h0 : lkPred j2 0 = 0 := by simp [lkPred]
        omega
      · rw [lkPred, if_neg hj0]
        rcases hlk : List.lookup (j - 1) j2 with _ | k0
        · have h0 : lk j2 (j - 1) = 0 := by simp [lk, hlk]
          omega
        · have h0 : lk j2 (j - 1) = k0 := by simp [lk, hlk]
          obtain ⟨hp1, hp2, hp3, hp4, hp5, hp6⟩ := hprev (j - 1, k0) (lookup_mem hlk)
          simp only at hp1 hp2 hp3 hp4 hp5 hp6
          omega
    rw [innerLoop]
    apply innerLoop_sound a b alo ahi blo bhi i c hai hia hih j2 hprev js
    · intro j'' hj''
      exact hjs j'' (by simp [hj''])
    · intro p hp
      rcases List.mem_cons.mp hp with hp1 | hp2
      · subst hp1
        exact ⟨hjlo, hjhi, by omega, hb1, hb2, hrun⟩
      · exact hacc p hp2
    · by_cases hreg : bs < lkPred j2 j + 1
      · rw [if_pos hreg]
        right
        refine ⟨by dsimp only; omega, by dsimp only; omega, by dsimp only; omega,
          by dsimp only; omega, by dsimp only; omega, ?_⟩
        intro m hm
        dsimp only at hm ⊢
        have hmk : (lkPred j2 j + 1) - 1 - m < lkPred j2 j + 1 := by omega
        obtain ⟨ch, hach, hbch⟩ := hrun _ hmk
        refine ⟨ch, ?_, ?_⟩
        · have he : i + 1 - (lkPred j2 j + 1) + m = i - ((lkPred j2 j + 1) - 1 - m) := by
            omega
          rwa [he]
        · have he : j + 1 - (lkPred j2 j + 1) + m = j - ((lkPred j2 j + 1) - 1 - m) := by
            omega
          rwa [he]
      · rw [if_neg hreg]
        exact hbest

theorem outerLoop_sound (a b : List Char) (alo ahi blo bhi : Nat) :
    ∀ (n i0 : Nat) (j2 : J2Len) (best : Nat × Nat × Nat),
      alo ≤ i0 → i0 + n ≤ ahi →
      (∀ p ∈ j2, blo ≤ p.1 ∧ p.1 < bhi ∧ 1 ≤ p.2 ∧ p.2 + blo ≤ p.1 + 1 ∧
        p.2 + alo ≤ i0 ∧ (∀ m, m < p.2 →
          ∃ ch, a.get? (i0 - 1 - m) = some ch ∧ b.get? (p.1 - m) = some ch)) →
      (best = (alo, blo, 0) ∨ (alo ≤ best.1 ∧ blo ≤ best.2.1 ∧ 1 ≤ best.2.2 ∧
        best.1 + best.2.2 ≤ ahi ∧ best.2.1 + best.2.2 ≤ bhi ∧
        matchRun a b best.1 best.2.1 best.2.2)) →
      ((outerLoop a b blo bhi (List.range' i0 n) (j2, best)).2 = (alo, blo, 0) ∨
        (alo ≤ (outerLoop a b blo bhi (List.range' i0 n) (j2, best)).2.1 ∧
         blo ≤ (outerLoop a b blo bhi (List.range' i0 n) (j2, best)).2.2.1 ∧
         1 ≤ (outerLoop a b blo bhi (List.range' i0 n) (j2, best)).2.2.2 ∧
         (outerLoop a b blo bhi (List.range' i0 n) (j2, best)).2.1 +
           (outerLoop a b blo bhi (List.range' i0 n) (j2, best)).2.2.2 ≤ ahi ∧
         (outerLoop a b blo bhi (List.range' i0 n) (j2, best)).2.2.1 +
           (outerLoop a b blo bhi (List.range' i0 n) (j2, best)).2.2.2 ≤ bhi ∧
         matchRun a b (outerLoop a b blo bhi (List.range' i0 n) (j2, best)).2.1
           (outerLoop a b blo bhi (List.range' i0 n) (j2, best)).2.2.1
           (outerLoop a b blo bhi (List.range' i0 n) (j2, best)).2.2.2))
  | 0, i0, j2, best, _, _, _, hbest => by
    rw [List.range'_zero, outerLoop]
    rcases best with ⟨bi, bj, bs⟩
    exact hbest
  | n + 1, i0, j2, best, hlo, hhi, hprev, hbest => by
    rw [List.range'_succ, outerLoop]
    rcases hget : a.get? i0 with _ | c
    · dsimp only
      exact outerLoop_sound a b alo ahi blo bhi n (i0 + 1) [] best (by omega) (by omega)
        (by simp) hbest
    · dsimp only
      have hinner := innerLoop_sound a b alo ahi blo bhi i0 c hget hlo (by omega) j2
        hprev (jsIn b c blo bhi) [] best
        (fun j hj => by
          obtain ⟨h1, h2, h3, _⟩ := mem_jsIn hj
          exact ⟨h1, h2, h3⟩)
        (by simp) hbest
      obtain ⟨hacc, hbest'⟩ := hinner
      rcases hil : innerLoop j2 i0 (jsIn b c blo bhi) [] best with ⟨j2', best'⟩
      rw [hil] at hacc hbest'
      apply outerLoop_sound a b alo ahi blo bhi n (i0 + 1) j2' best' (by omega) (by omega)
      · intro p hp
        obtain ⟨h1, h2, h3, h4, h5, h6⟩ := hacc p hp
        refine ⟨h1, h2, h3, h4, by omega, ?_⟩
        intro m hm
        have he : i0 + 1 - 1 - m = i0 - m := by omega
        rw [he]
        exact h6 m hm
      · exact hbest'

theorem dpBest_sound (a b : List Char) (alo ahi blo bhi : Nat) :
    (dpBest a b alo ahi blo bhi = (alo, blo, 0) ∨
      (alo ≤ (dpBest a b alo ahi blo bhi).1 ∧ blo ≤ (dpBest a b alo ahi blo bhi).2.1 ∧
       1 ≤ (dpBest a b alo ahi blo bhi).2.2 ∧
       (dpBest a b alo ahi blo bhi).1 + (dpBest a b alo ahi blo bhi).2.2 ≤ ahi ∧
       (dpBest a b alo ahi blo bhi).2.1 + (dpBest a b alo ahi blo bhi).2.2 ≤ bhi ∧
       matchRun a b (dpBest a b alo ahi blo bhi).1 (dpBest a b alo ahi blo bhi).2.1
         (dpBest a b alo ahi blo bhi).2.2)) := by
  by_cases h : alo ≤ ahi
  · exact outerLoop_sound a b alo ahi blo bhi (ahi - alo) alo [] (alo, blo, 0)
      (le_refl _) (by omega) (by simp) (Or.inl rfl)
  · have h0 : ahi - alo = 0 := by omega
    rw [dpBest, h0, List.range'_zero, outerLoop]
    exact Or.inl rfl

theorem extLeft_sound (a b : List Char) (alo ahi blo bhi : Nat) :
    ∀ (fuel : Nat) (best : Nat × Nat × Nat),
      (best = (alo, blo, 0) ∨ (alo ≤ best.1 ∧ blo ≤ best.2.1 ∧ 1 ≤ best.2.2 ∧
        best.1 + best.2.2 ≤ ahi ∧ best.2.1 + best.2.2 ≤ bhi ∧
        matchRun a b best.1 best.2.1 best.2.2)) →
      (extLeft a b alo blo fuel best = (alo, blo, 0) ∨
        (alo ≤ (extLeft a b alo blo fuel best).1 ∧
         blo ≤ (extLeft a b alo blo fuel best).2.1 ∧
         1 ≤ (extLeft a b alo blo fuel best).2.2 ∧
         (extLeft a b alo blo fuel best).1 + (extLeft a b alo blo fuel best).2.2 ≤ ahi ∧
         (extLeft a b alo blo fuel best).2.1 + (extLeft a b alo blo fuel best).2.2 ≤ bhi ∧
         matchRun a b (extLeft a b alo blo fuel best).1
           (extLeft a b alo blo fuel best).2.1 (extLeft a b alo blo fuel best).2.2))
  | 0, best, hbest => by
    rw [extLeft]
    rcases best with ⟨bi, bj, bs⟩
    exact hbest
  | fuel + 1, (bi, bj, bs), hbest => by
    rw [extLeft]
    by_cases hcond : alo < bi ∧ blo < bj ∧ (a.get? (bi - 1)).isSome ∧
        a.get? (bi - 1) = b.get? (bj - 1)
    · rw [if_pos hcond]
      obtain ⟨hc1, hc2, hc3, hc4⟩ := hcond
      apply extLeft_sound a b alo ahi blo bhi fuel
      right
      rcases hbest with hdeg | ⟨h1, h2, h3, h4, h5, h6⟩
      · exfalso
        have : bi = alo := congrArg (fun p => p.1) hdeg
        omega
      · dsimp only at h1 h2 h3 h4 h5
        refine ⟨by dsimp only; omega, by dsimp only; omega, by dsimp only; omega,
          by dsimp only; omega, by dsimp only; omega, ?_⟩
        intro m hm
        dsimp only at hm ⊢
        rcases m with _ | m'
        · rcases hch : a.get? (bi - 1) with _ | ch
          · rw [hch] at hc3; simp at hc3
          · refine ⟨ch, ?_, ?_⟩
            · have he : bi - 1 + 0 = bi - 1 := by omega
              rw [he, hch]
            · have he : bj - 1 + 0 = bj - 1 := by omega
              rw [he, ← hc4, hch]
        · have hm' : m' < bs := by omega
          obtain ⟨ch, hach, hbch⟩ := h6 m' hm'
          refine ⟨ch, ?_, ?_⟩
          · have he : bi - 1 + (m' + 1) = bi + m' := by omega
            rwa [he]
          · have he : bj - 1 + (m' + 1) = bj + m' := by omega
            rwa [he]
    · rw [if_neg hcond]
      exact hbest

theorem extRight_sound (a b : List Char) (alo ahi blo bhi : Nat) :
    ∀ (fuel : Nat) (best : Nat × Nat × Nat),
      (best = (alo, blo, 0) ∨ (alo ≤ best.1 ∧ blo ≤ best.2.1 ∧ 1 ≤ best.2.2 ∧
        best.1 + best.2.2 ≤ ahi ∧ best.2.1 + best.2.2 ≤ bhi ∧
        matchRun a b best.1 best.2.1 best.2.2)) →
      (extRight a b ahi bhi fuel best = (alo, blo, 0) ∨
        (alo ≤ (extRight a b ahi bhi fuel best).1 ∧
         blo ≤ (extRight a b ahi bhi fuel best).2.1 ∧
         1 ≤ (extRight a b ahi bhi fuel best).2.2 ∧
         (extRight a b ahi bhi fuel best).1 + (extRight a b ahi bhi fuel best).2.2 ≤ ahi ∧
         (extRight a b ahi bhi fuel best).2.1 + (extRight a b ahi bhi fuel best).2.2 ≤ bhi ∧
         matchRun a b (extRight a b ahi bhi fuel best).1
           (extRight a b ahi bhi fuel best).2.1 (extRight a b ahi bhi fuel best).2.2))
  | 0, best, hbest => by
    rw [extRight]
    rcases best with ⟨bi, bj, bs⟩
    exact hbest
  | fuel + 1, (bi, bj, bs), hbest => by
    rw [extRight]
    by_cases hcond : bi + bs < ahi ∧ bj + bs < bhi ∧ (a.get? (bi + bs)).isSome ∧
        a.get? (bi + bs) = b.get? (bj + bs)
    · rw [if_pos hcond]
      obtain ⟨hc1, hc2, hc3, hc4⟩ := hcond
      apply extRight_sound a b alo ahi blo bhi fuel
      right
      have hnew : ∀ m, m < bs + 1 →
          ∃ ch, a.get? (bi + m) = some ch ∧ b.get? (bj + m) = some ch := by
        intro m hm
        by_cases hmb : m < bs
        · rcases hbest with hdeg | ⟨_, _, _, _, _, h6⟩
          · exfalso
            have : bs = 0 := congrArg (fun p => p.2.2) hdeg
            omega
          · exact h6 m hmb
        · have hmeq : m = bs := by omega
          rw [hmeq]
          rcases hch : a.get? (bi + bs) with _ | ch
          · rw [hch] at hc3; simp at hc3
          · refine ⟨ch, rfl, ?_⟩
            rw [← hc4, hch]
      rcases hbest with hdeg | ⟨h1, h2, h3, h4, h5, h6⟩
      · have hbi : bi = alo := congrArg (fun p => p.1) hdeg
        have hbj : bj = blo := congrArg (fun p => p.2.1) hdeg
        have hbs : bs = 0 := congrArg (fun p => p.2.2) hdeg
        exact ⟨by dsimp only; omega, by dsimp only; omega, by dsimp only; omega,
          by dsimp only; omega, by dsimp only; omega, hnew⟩
      · dsimp only at h1 h2 h3 h4 h5
        exact ⟨by dsimp only; omega, by dsimp only; omega, by dsimp only; omega,
          by dsimp only; omega, by dsimp only; omega, hnew⟩
    · rw [if_neg hcond]
      exact hbest

theorem flm_sound (a b : List Char) (alo ahi blo bhi : Nat) :
    (flm a b alo ahi blo bhi = (alo, blo, 0) ∨
      (alo ≤ (flm a b alo ahi blo bhi).1 ∧ blo ≤ (flm a b alo ahi blo bhi).2.1 ∧
       1 ≤ (flm a b alo ahi blo bhi).2.2 ∧
       (flm a b alo ahi blo bhi).1 + (flm a b alo ahi blo bhi).2.2 ≤ ahi ∧
       (flm a b alo ahi blo bhi).2.1 + (flm a b alo ahi blo bhi).2.2 ≤ bhi ∧
       matchRun a b (flm a b alo ahi blo bhi).1 (flm a b alo ahi blo bhi).2.1
         (flm a b alo ahi blo bhi).2.2)) := by
  have h1 := dpBest_sound a b alo ahi blo bhi
  have h2 := extLeft_sound a b alo ahi blo bhi (dpBest a b alo ahi blo bhi).1
    (dpBest a b alo ahi blo bhi) h1
  have h3 := extRight_sound a b alo ahi blo bhi
    (ahi - ((extLeft a b alo blo (dpBest a b alo ahi blo bhi).1
      (dpBest a b alo ahi blo bhi)).1 +
      (extLeft a b alo blo (dpBest a b alo ahi blo bhi).1
        (dpBest a b alo ahi blo bhi)).2.2))
    (extLeft a b alo blo (dpBest a b alo ahi blo bhi).1 (dpBest a b alo ahi blo bhi)) h2
  exact h3

theorem matchTotal_le (a b : List Char) :
    ∀ (fuel alo ahi blo bhi : Nat), ahi - alo < fuel →
      matchTotal a b fuel alo ahi blo bhi ≤ ahi - alo ∧
        matchTotal a b fuel alo ahi blo bhi ≤ bhi - blo
  | 0, alo, ahi, blo, bhi, h => by omega
  | fuel + 1, alo, ahi, blo, bhi, h => by
    rw [matchTotal]
    rcases hflm : flm a b alo ahi blo bhi with ⟨i, j, k⟩
    dsimp only
    by_cases hk : k = 0
    · rw [if_pos hk]
      omega
    · rw [if_neg hk]
      rcases flm_sound a b alo ahi blo bhi with hdeg | ⟨h1, h2, h3, h4, h5, _⟩
      · rw [hflm] at hdeg
        have : k = 0 := congrArg (fun p => p.2.2) hdeg
        omega
      · rw [hflm] at h1 h2 h3 h4 h5
        dsimp only at h1 h2 h3 h4 h5
        have hl := matchTotal_le a b fuel alo i blo j (by omega)
        have hr := matchTotal_le a b fuel (i + k) ahi (j + k) bhi (by omega)
        omega

theorem matchTotal_full (a b : List Char) :
    ∀ (fuel alo ahi blo bhi : Nat), ahi - alo < fuel →
      matchTotal a b fuel alo ahi blo bhi = ahi - alo →
      matchTotal a b fuel alo ahi blo bhi = bhi - blo →
      blo ≤ bhi →
      ∀ m, alo + m < ahi →
        ∃ ch, a.get? (alo + m) = some ch ∧ b.get? (blo + m) = some ch
  | 0, alo, ahi, blo, bhi, hfuel, _, _, _, m, hm => by omega
  | fuel + 1, alo, ahi, blo, bhi, hfuel, hea, heb, hbw, m, hm => by
    rw [matchTotal] at hea heb
    rcases hflm : flm a b alo ahi blo bhi with ⟨i, j, k⟩
    rw [hflm] at hea heb
    dsimp only at hea heb
    by_cases hk : k = 0
    · rw [if_pos hk] at hea
      omega
    · rw [if_neg hk] at hea heb
      rcases flm_sound a b alo ahi blo bhi with hdeg | ⟨h1, h2, h3, h4, h5, h6⟩
      · rw [hflm] at hdeg
        have : k = 0 := congrArg (fun p => p.2.2) hdeg
        omega
      · rw [hflm] at h1 h2 h3 h4 h5 h6
        dsimp only at h1 h2 h3 h4 h5 h6
        have hlb := matchTotal_le a b fuel alo i blo j (by omega)
        have hrb := matchTotal_le a b fuel (i + k) ahi (j + k) bhi (by omega)
        -- squeeze: the left block is full on both sides, ditto the right block
        have hla : matchTotal a b fuel alo i blo j = i - alo := by omega
        have hlb2 : matchTotal a b fuel alo i blo j = j - blo := by omega
        have hra : matchTotal a b fuel (i + k) ahi (j + k) bhi = ahi - (i + k) := by omega
        have hrb2 : matchTotal a b fuel (i + k) ahi (j + k) bhi = bhi - (j + k) := by omega
        have hij : i - alo = j - blo := by omega
        by_cases hml : alo + m < i
        · exact matchTotal_full a b fuel alo i blo j (by omega) hla hlb2 (by omega) m hml
        · by_cases hmm : alo + m < i + k
          · have hidx : alo + m = i + (m - (i - alo)) := by omega
            have hjdx : blo + m = j + (m - (i - alo)) := by omega
            rw [hidx, hjdx]
            exact h6 _ (by omega)
          · have hm2 := matchTotal_full a b fuel (i + k) ahi (j + k) bhi (by omega)
              hra hrb2 (by omega) (alo + m - (i + k)) (by omega)
            have hidx : i + k + (alo + m - (i + k)) = alo + m := by omega
            have hjdx : j + k + (alo + m - (i + k)) = blo + m := by omega
            rw [hidx, hjdx] at hm2
            exact hm2

theorem matchRun_def (a b : List Char) (i j k : Nat) (h : matchRun a b i j k) :
    ∀ m, m < k → ∃ ch, a.get? (i + m) = some ch ∧ b.get? (j + m) = some ch := h

theorem ratioQ_nonneg (a b : List Char) : 0 ≤ ratioQ a b := by
  rw [ratioQ]
  by_cases h : a.length + b.length = 0
  · rw [if_pos h]
    norm_num
  · rw [if_neg h]
    have hT : (0 : ℚ) < (a.length : ℚ) + (b.length : ℚ) := by
      have : 0 < a.length + b.length := by omega
      exact_mod_cast this
    positivity

theorem ratioQ_le_one (a b : List Char) : ratioQ a b ≤ 1 := by
  rw [ratioQ]
  by_cases h : a.length + b.length = 0
  · rw [if_pos h]
  · rw [if_neg h]
    have hM := matchTotal_le a b (a.length + 1) 0 a.length 0 b.length (by omega)
    have hT : (0 : ℚ) < (a.length : ℚ) + (b.length : ℚ) := by
      have : 0 < a.length + b.length := by omega
      exact_mod_cast this
    rw [div_le_one hT]
    have h2 : 2 * matchTotal a b (a.length + 1) 0 a.length 0 b.length ≤
        a.length + b.length := by omega
    exact_mod_cast h2

theorem ratioQ_eq_one (a b : List Char) (h : ratioQ a b = 1) : a = b := by
  rw [ratioQ] at h
  by_cases hT : a.length + b.length = 0
  · have ha : a = [] := List.length_eq_zero.mp (by omega)
    have hb : b = [] := List.length_eq_zero.mp (by omega)
    rw [ha, hb]
  · rw [if_neg hT] at h
    have hTQ : (0 : ℚ) < (a.length : ℚ) + (b.length : ℚ) := by
      have : 0 < a.length + b.length := by omega
      exact_mod_cast this
    rw [div_eq_one_iff_eq (ne_of_gt hTQ)] at h
    have hNat : 2 * matchTotal a b (a.length + 1) 0 a.length 0 b.length =
        a.length + b.length := by exact_mod_cast h
    have hM := matchTotal_le a b (a.length + 1) 0 a.length 0 b.length (by omega)
    have hMa : matchTotal a b (a.length + 1) 0 a.length 0 b.length = a.length - 0 := by
      omega
    have hMb : matchTotal a b (a.length + 1) 0 a.length 0 b.length = b.length - 0 := by
      omega
    have hlen : a.length = b.length := by omega
    have hfull := matchTotal_full a b (a.length + 1) 0 a.length 0 b.length (by omega)
      hMa hMb (by omega)
    apply List.ext_get?
    intro n
    by_cases hn : n < a.length
    · obtain ⟨ch, hach, hbch⟩ := hfull n (by omega)
      simp only [Nat.zero_add] at hach hbch
      rw [hach, hbch]
    · rw [List.get?_len_le (by omega), List.get?_len_le (by omega)]

theorem calculate_similarity_nonneg (x y : String) : 0 ≤ calculate_similarity x y :=
  ratioQ_nonneg _ _

theorem calculate_similarity_le_one (x y : String) : calculate_similarity x y ≤ 1 :=
  ratioQ_le_one _ _

theorem calculate_similarity_eq_one (x y : String)
    (h : calculate_similarity x y = 1) : pyLower x = pyLower y := by
  have := ratioQ_eq_one _ _ h
  exact String.ext this

theorem flm_k_zero_of_disjoint (a b : List Char) (alo ahi blo bhi : Nat)
    (h : ∀ c ∈ a, c ∉ b) : (flm a b alo ahi blo bhi).2.2 = 0 := by
  rcases flm_sound a b alo ahi blo bhi with hdeg | ⟨_, _, h3, _, _, h6⟩
  · rw [hdeg]
  · exfalso
    obtain ⟨ch, hach, hbch⟩ := h6 0 (by omega)
    exact h ch (List.get?_mem hach) (List.get?_mem hbch)

theorem ratioQ_disjoint (a b : List Char) (h : ∀ c ∈ a, c ∉ b)
    (hne : a.length + b.length ≠ 0) : ratioQ a b = 0 := by
  rw [ratioQ, if_neg hne]
  have hM : matchTotal a b (a.length + 1) 0 a.length 0 b.length = 0 := by
    rw [matchTotal]
    rw [if_pos (flm_k_zero_of_disjoint a b 0 a.length 0 b.length h)]
  rw [hM]
  norm_num

theorem dedup_foldl_eq_specGo (t : ℚ) :
    ∀ (rest acc : List AtomicFact), rest.foldl (dedupStep t) acc = dedupSpecGo t acc rest
  | [], acc => rfl
  | f :: rest, acc => by
    rw [List.foldl_cons, dedupSpecGo]
    by_cases hex : ∃ u ∈ acc, t ≤ calculate_similarity f.text u.text
    · rw [if_pos hex]
      have hany : dedupStep t acc f = acc := by
        rw [dedupStep, if_pos]
        rw [List.any_eq_true]
        obtain ⟨u, hu, hle⟩ := hex
        exact ⟨u, hu, by simpa using hle⟩
      rw [hany]
      exact dedup_foldl_eq_specGo t rest acc
    · rw [if_neg hex]
      have hany : dedupStep t acc f = acc ++ [f] := by
        rw [dedupStep, if_neg]
        rw [List.any_eq_true]
        intro ⟨u, hu, hle⟩
        exact hex ⟨u, hu, by simpa using hle⟩
      rw [hany]
      exact dedup_foldl_eq_specGo t rest (acc ++ [f])

theorem dedup_foldl_split (t : ℚ) :
    ∀ (rest acc : List AtomicFact),
      ∃ g, rest.foldl (dedupStep t) acc = acc ++ g ∧ g.Sublist rest
  | [], acc => ⟨[], by simp⟩
  | f :: rest, acc => by
    rw [List.foldl_cons, dedupStep]
    by_cases hany : (acc.any fun u => decide (t ≤ calculate_similarity f.text u.text)) = true
    · rw [if_pos hany]
      obtain ⟨g, hg, hsub⟩ := dedup_foldl_split t rest acc
      exact ⟨g, hg, hsub.trans (List.sublist_cons_self f rest)⟩
    · rw [if_neg hany]
      obtain ⟨g, hg, hsub⟩ := dedup_foldl_split t rest (acc ++ [f])
      refine ⟨f :: g, ?_, hsub.cons₂ f⟩
      rw [hg, List.append_assoc]
      rfl

theorem dedup_foldl_cover (t : ℚ) :
    ∀ (rest acc : List AtomicFact) (x : AtomicFact), x ∈ rest →
      ∃ u ∈ rest.foldl (dedupStep t) acc, u = x ∨ t ≤ calculate_similarity x.text u.text
  | [], _, x, hx => by simp at hx
  | f :: rest, acc, x, hx => by
    rw [List.foldl_cons]
    rcases List.mem_cons.mp hx with hxf | hxr
    · subst hxf
      rw [dedupStep]
      by_cases hany : (acc.any fun u => decide (t ≤ calculate_similarity x.text u.text)) = true
      · rw [if_pos hany]
        rw [List.any_eq_true] at hany
        obtain ⟨u, hu, hle⟩ := hany
        obtain ⟨g, hg, _⟩ := dedup_foldl_split t rest acc
        refine ⟨u, ?_, Or.inr (by simpa using hle)⟩
        rw [hg]
        exact List.mem_append.mpr (Or.inl hu)
      · rw [if_neg hany]
        obtain ⟨g, hg, _⟩ := dedup_foldl_split t rest (acc ++ [x])
        refine ⟨x, ?_, Or.inl rfl⟩
        rw [hg]
        exact List.mem_append.mpr (Or.inl (by simp))
    · exact dedup_foldl_cover t rest (dedupStep t acc f) x hxr

theorem dedup_zero_collapse (f : AtomicFact) (rest : List AtomicFact) :
    deduplicate_facts (f :: rest) 0 = [f] := by
  show rest.foldl (dedupStep 0) [f] = [f]
  induction rest with
  | nil => rfl
  | cons v rest ih =>
    rw [List.foldl_cons]
    have hstep : dedupStep 0 [f] v = [f] := by
      rw [dedupStep, if_pos]
      simp only [List.any_cons, List.any_nil, Bool.or_false, decide_eq_true_eq]
      exact calculate_similarity_nonneg _ _
    rw [hstep]
    exact ih

/-- Claim C1: `deduplicate_facts` is the greedy order-preserving filter: it
returns `[]` on empty input; it coincides with the spec-side accumulator
description `dedupSpec` (first fact kept, each later fact discarded iff some
already-kept fact reaches the threshold); its output is a sublist of the
input (order preservation); threshold `0` collapses any non-empty input to
its first fact; and at threshold `1` every input fact is lowercase-identical
to some surviving fact, i.e. only character-for-character duplicates (after
lowercasing) are ever discarded. -/
theorem claim_C1 :
    (∀ t : ℚ, deduplicate_facts [] t = []) ∧
    (∀ (facts : List AtomicFact) (t : ℚ), deduplicate_facts facts t = dedupSpec facts t) ∧
    (∀ (facts : List AtomicFact) (t : ℚ), (deduplicate_facts facts t).Sublist facts) ∧
    (∀ (f : AtomicFact) (rest : List AtomicFact), deduplicate_facts (f :: rest) 0 = [f]) ∧
    (∀ (facts : List AtomicFact) (x : AtomicFact), x ∈ facts →
      ∃ u ∈ deduplicate_facts facts 1, pyLower x.text = pyLower u.text) := by
  refine ⟨fun t => rfl, ?_, ?_, dedup_zero_collapse, ?_⟩
  · intro facts t
    cases facts with
    | nil => rfl
    | cons f rest => exact dedup_foldl_eq_specGo t rest [f]
  · intro facts t
    cases facts with
    | nil => exact List.Sublist.refl _
    | cons f rest =>
      show (rest.foldl (dedupStep t) [f]).Sublist (f :: rest)
      obtain ⟨g, hg, hsub⟩ := dedup_foldl_split t rest [f]
      rw [hg]
      exact hsub.cons₂ f
  · intro facts x hx
    cases facts with
    | nil => simp at hx
    | cons f rest =>
      rcases List.mem_cons.mp hx with hxf | hxr
      · subst hxf
        obtain ⟨g, hg, _⟩ := dedup_foldl_split 1 rest [x]
        refine ⟨x, ?_, rfl⟩
        show x ∈ rest.foldl (dedupStep 1) [x]
        rw [hg]
        exact List.mem_append.mpr (Or.inl (by simp))
      · obtain ⟨u, hu, hcase⟩ := dedup_foldl_cover 1 rest [f] x hxr
        rcases hcase with heq | hle
        · exact ⟨u, hu, by rw [heq]⟩
        · have h1 : calculate_similarity x.text u.text = 1 :=
            le_antisymm (calculate_similarity_le_one _ _) hle
          exact ⟨u, hu, calculate_similarity_eq_one _ _ h1⟩

theorem sim_ab_bacb : calculate_similarity "ab" "bacb" = 2 / 3 := by
  have e1 : pyLower "ab" = "ab" := by decide
  have e2 : pyLower "bacb" = "bacb" := by decide
  have h := ratioQ_eval "ab".data "bacb".data 2 2 4 rfl rfl (by decide) (by decide)
  simp only [calculate_similarity, e1, e2, h]
  norm_num

theorem sim_bacb_ab : calculate_similarity "bacb" "ab" = 1 / 3 := by
  have e1 : pyLower "bacb" = "bacb" := by decide
  have e2 : pyLower "ab" = "ab" := by decide
  have h := ratioQ_eval "bacb".data "ab".data 1 4 2 rfl rfl (by decide) (by decide)
  simp only [calculate_similarity, e1, e2, h]
  norm_num

theorem sim_empty_empty : calculate_similarity "" "" = 1 := rfl

/-- Counterexample to claim C4: the similarity scorer is not symmetric
(`sim("ab","bacb") = 2/3` but `sim("bacb","ab") = 1/3`), and the vacuously
disjoint pair of empty strings scores `1.0`, not `0.0`. -/
theorem claim_C4_counterexample :
    calculate_similarity "ab" "bacb" ≠ calculate_similarity "bacb" "ab" ∧
    ((∀ c ∈ (pyLower "").data, c ∉ (pyLower "").data) ∧ calculate_similarity "" "" = 1) := by
  refine ⟨?_, fun c hc => by simp [pyLower] at hc, sim_empty_empty⟩
  rw [sim_ab_bacb, sim_bacb_ab]
  norm_num

/-- Witness for C1: the membership hypothesis of the threshold-1 clause
discharged at a singleton input. -/
theorem claim_C1_witness :
    ∃ u ∈ deduplicate_facts [mkFact "a"] 1, pyLower (mkFact "a").text = pyLower u.text :=
  claim_C1.2.2.2.2 [mkFact "a"] (mkFact "a") (by decide)

theorem diagRun_bad (s : List Char) (lo hi j : Nat)
    (h : ¬(lo ≤ j ∧ j < hi ∧ nonpopB s j = true)) : diagRun s lo hi j = 0 := by
  cases j with
  | zero =>
    rw [diagRun]
    rw [if_neg]
    intro ⟨h1, h2, h3⟩
    exact h ⟨by omega, h2, h3⟩
  | succ j' =>
    rw [diagRun, if_neg h]

theorem diagRun_lo (s : List Char) (lo hi : Nat) (hw : lo < hi)
    (hnp : nonpopB s lo = true) : diagRun s lo hi lo = 1 := by
  rcases Nat.eq_zero_or_pos lo with h0 | hpos
  · subst h0
    rw [diagRun, if_pos ⟨rfl, hw, hnp⟩]
  · obtain ⟨l', rfl⟩ : ∃ l', lo = l' + 1 := ⟨lo - 1, by omega⟩
    rw [diagRun, if_pos ⟨le_refl _, hw, hnp⟩, if_pos rfl]

theorem diagRun_step (s : List Char) (lo hi j : Nat) (hlo : lo < j) (hhi : j < hi)
    (hnp : nonpopB s j = true) :
    diagRun s lo hi j = diagRun s lo hi (j - 1) + 1 := by
  cases j with
  | zero => omega
  | succ j' =>
    rw [diagRun, if_pos ⟨by omega, hhi, hnp⟩, if_neg (by omega)]
    simp

theorem diagRun_ge_one (s : List Char) (lo hi j : Nat) (hlo : lo ≤ j) (hhi : j < hi)
    (hnp : nonpopB s j = true) : 1 ≤ diagRun s lo hi j := by
  by_cases hj : j = lo
  · have h1 := diagRun_lo s lo hi (by omega) (by rwa [hj] at hnp)
    rw [hj, h1]
  · rw [diagRun_step s lo hi j (by omega) hhi hnp]
    omega

theorem extLeft_k_mono (a b : List Char) (alo blo : Nat) :
    ∀ (fuel : Nat) (best : Nat × Nat × Nat),
      best.2.2 ≤ (extLeft a b alo blo fuel best).2.2
  | 0, best => by rw [extLeft]
  | fuel + 1, (bi, bj, bs) => by
    rw [extLeft]
    by_cases hcond : alo < bi ∧ blo < bj ∧ (a.get? (bi - 1)).isSome ∧
        a.get? (bi - 1) = b.get? (bj - 1)
    · rw [if_pos hcond]
      have := extLeft_k_mono a b alo blo fuel (bi - 1, bj - 1, bs + 1)
      dsimp only at this ⊢
      omega
    · rw [if_neg hcond]

theorem extRight_k_mono (a b : List Char) (ahi bhi : Nat) :
    ∀ (fuel : Nat) (best : Nat × Nat × Nat),
      best.2.2 ≤ (extRight a b ahi bhi fuel best).2.2
  | 0, best => by rw [extRight]
  | fuel + 1, (bi, bj, bs) => by
    rw [extRight]
    by_cases hcond : bi + bs < ahi ∧ bj + bs < bhi ∧ (a.get? (bi + bs)).isSome ∧
        a.get? (bi + bs) = b.get? (bj + bs)
    · rw [if_pos hcond]
      have := extRight_k_mono a b ahi bhi fuel (bi, bj, bs + 1)
      dsimp only at this ⊢
      omega
    · rw [if_neg hcond]

theorem extLeft_diag (s : List Char) (lo : Nat) :
    ∀ (fuel : Nat) (best : Nat × Nat × Nat), best.1 = best.2.1 →
      (extLeft s s lo lo fuel best).1 = (extLeft s s lo lo fuel best).2.1
  | 0, best, h => by rw [extLeft]; exact h
  | fuel + 1, (bi, bj, bs), h => by
    dsimp only at h
    subst h
    rw [extLeft]
    by_cases hcond : lo < bi ∧ lo < bi ∧ (s.get? (bi - 1)).isSome ∧
        s.get? (bi - 1) = s.get? (bi - 1)
    · rw [if_pos hcond]
      exact extLeft_diag s lo fuel (bi - 1, bi - 1, bs + 1) rfl
    · rw [if_neg hcond]

theorem extRight_diag (s : List Char) (hi : Nat) :
    ∀ (fuel : Nat) (best : Nat × Nat × Nat), best.1 = best.2.1 →
      (extRight s s hi hi fuel best).1 = (extRight s s hi hi fuel best).2.1
  | 0, best, h => by rw [extRight]; exact h
  | fuel + 1, (bi, bj, bs), h => by
    dsimp only at h
    subst h
    rw [extRight]
    by_cases hcond : bi + bs < hi ∧ bi + bs < hi ∧ (s.get? (bi + bs)).isSome ∧
        s.get? (bi + bs) = s.get? (bi + bs)
    · rw [if_pos hcond]
      exact extRight_diag s hi fuel (bi, bi, bs + 1) rfl
    · rw [if_neg hcond]

theorem mem_jsIn_intro {b : List Char} {c : Char} {blo bhi j : Nat}
    (h1 : blo ≤ j) (h2 : j < bhi) (h3 : b.get? j = some c)
    (h4 : popularB b c = false) : j ∈ jsIn b c blo bhi := by
  simp only [jsIn, b2j, List.mem_filter]
  rw [if_neg (by simp [h4])]
  have hjlen : j < b.length := by
    by_contra hc
    rw [List.get?_len_le (by omega)] at h3
    simp at h3
  constructor
  · simp only [b2jAll, List.mem_filter, List.mem_range, decide_eq_true_eq]
    exact ⟨hjlen, h3⟩
  · simp [h1, h2]

theorem jsIn_sorted (b : List Char) (c : Char) (blo bhi : Nat) :
    (jsIn b c blo bhi).Pairwise (· < ·) := by
  apply List.Pairwise.filter
  rw [b2j]
  by_cases h : popularB b c
  · rw [if_pos h]
    exact List.Pairwise.nil
  · rw [if_neg h]
    exact List.Pairwise.filter _ (List.pairwise_lt_range _)

theorem innerLoop_diag (s : List Char) (lo hi : Nat) (i : Nat) (j2 : J2Len)
    (hHK : lkPred j2 i + 1 = diagRun s lo hi i)
    (hHB : ∀ j, lo ≤ j → j < hi → nonpopB s j = true →
      lkPred j2 j + 1 ≤ diagRun s lo hi j ∧ lkPred j2 j + 1 ≤ diagRun s lo hi i) :
    ∀ (js : List Nat) (acc : J2Len) (bi bj bs : Nat),
      js.Pairwise (· < ·) →
      (∀ j ∈ js, lo ≤ j ∧ j < hi ∧ nonpopB s j = true) →
      (∀ p ∈ acc, 1 ≤ p.2 ∧ p.2 ≤ diagRun s lo hi p.1 ∧ p.2 ≤ diagRun s lo hi i ∧
        lo ≤ p.1 ∧ p.1 < hi) →
      bi = bj →
      (∀ i', lo ≤ i' → i' < i → diagRun s lo hi i' ≤ bs) →
      ((i ∈ js ∧ List.lookup i acc = none) ∨
        (List.lookup i acc = some (diagRun s lo hi i) ∧ diagRun s lo hi i ≤ bs ∧
          ∀ j ∈ js, i < j)) →
      (∀ p ∈ (innerLoop j2 i js acc (bi, bj, bs)).1, 1 ≤ p.2 ∧
        p.2 ≤ diagRun s lo hi p.1 ∧ p.2 ≤ diagRun s lo hi i ∧ lo ≤ p.1 ∧ p.1 < hi) ∧
      (innerLoop j2 i js acc (bi, bj, bs)).2.1 =
        (innerLoop j2 i js acc (bi, bj, bs)).2.2.1 ∧
      (∀ i', lo ≤ i' → i' < i →
        diagRun s lo hi i' ≤ (innerLoop j2 i js acc (bi, bj, bs)).2.2.2) ∧
      (List.lookup i (innerLoop j2 i js acc (bi, bj, bs)).1 =
        some (diagRun s lo hi i) ∧
        diagRun s lo hi i ≤ (innerLoop j2 i js acc (bi, bj, bs)).2.2.2)
  | [], acc, bi, bj, bs, _, _, hacc, hdiag, hP4, hphase => by
    rw [innerLoop]
    rcases hphase with ⟨hin, _⟩ | ⟨hlk, hle, _⟩
    · simp at hin
    · exact ⟨hacc, hdiag, hP4, hlk, hle⟩
  | j :: js, acc, bi, bj, bs, hsort, hjs, hacc, hdiag, hP4, hphase => by
    obtain ⟨hjlo, hjhi, hjnp⟩ := hjs j (by simp)
    obtain ⟨hbj1, hbj2⟩ := hHB j hjlo hjhi hjnp
    have hsort' := (List.pairwise_cons.mp hsort).2
    have hjlt := (List.pairwise_cons.mp hsort).1
    rw [innerLoop]
    rcases Nat.lt_trichotomy j i with hji | hji | hji
    · -- j < i: no registration, i still ahead
      have hnoreg : ¬ bs < lkPred j2 j + 1 := by
        have := hP4 j hjlo hji
        omega
      rw [if_neg hnoreg]
      apply innerLoop_diag s lo hi i j2 hHK hHB js _ bi bj bs hsort'
        (fun j' hj' => hjs j' (by simp [hj']))
      · intro p hp
        rcases List.mem_cons.mp hp with hp1 | hp2
        · subst hp1
          exact ⟨by omega, hbj1, hbj2, hjlo, hjhi⟩
        · exact hacc p hp2
      · exact hdiag
      · exact hP4
      · rcases hphase with ⟨hin, hlk⟩ | ⟨hlk, hle, hgt⟩
        · left
          have hin' : i ∈ js := by
            rcases List.mem_cons.mp hin with h1 | h2
            · omega
            · exact h2
          refine ⟨hin', ?_⟩
          rw [List.lookup]
          rw [show (i == j) = false from by simp; omega]
          exact hlk
        · exact absurd (hgt j (by simp)) (by omega)
    · -- j = i: the diagonal entry is computed exactly and may register
      subst hji
      have hlknew : List.lookup j ((j, lkPred j2 j + 1) :: acc) =
          some (diagRun s lo hi j) := by
        rw [List.lookup]
        rw [show (j == j) = true from by simp]
        rw [hHK]
      have haccnew : ∀ p ∈ (j, lkPred j2 j + 1) :: acc, 1 ≤ p.2 ∧
          p.2 ≤ diagRun s lo hi p.1 ∧ p.2 ≤ diagRun s lo hi j ∧
          lo ≤ p.1 ∧ p.1 < hi := by
        intro p hp
        rcases List.mem_cons.mp hp with hp1 | hp2
        · subst hp1
          exact ⟨by omega, hbj1, hbj2, hjlo, hjhi⟩
        · exact hacc p hp2
      by_cases hreg : bs < lkPred j2 j + 1
      · rw [if_pos hreg]
        apply innerLoop_diag s lo hi j j2 hHK hHB js ((j, lkPred j2 j + 1) :: acc)
          (j + 1 - (lkPred j2 j + 1)) (j + 1 - (lkPred j2 j + 1)) (lkPred j2 j + 1)
          hsort' (fun j' hj' => hjs j' (by simp [hj'])) haccnew rfl
        · intro i' hi'lo hi'lt
          have := hP4 i' hi'lo hi'lt
          omega
        · right
          exact ⟨hlknew, by omega, fun j' hj' => hjlt j' hj'⟩
      · rw [if_neg hreg]
        apply innerLoop_diag s lo hi j j2 hHK hHB js ((j, lkPred j2 j + 1) :: acc)
          bi bj bs hsort' (fun j' hj' => hjs j' (by simp [hj'])) haccnew hdiag hP4
        right
        exact ⟨hlknew, by omega, fun j' hj' => hjlt j' hj'⟩
    · -- j > i: i has already been passed; no registration
      rcases hphase with ⟨hin, hlk⟩ | ⟨hlk, hle, hgt⟩
      · exfalso
        rcases List.mem_cons.mp hin with h1 | h2
        · omega
        · exact absurd (hjlt i h2) (by omega)
      · have hnoreg : ¬ bs < lkPred j2 j + 1 := by omega
        rw [if_neg hnoreg]
        apply innerLoop_diag s lo hi i j2 hHK hHB js _ bi bj bs hsort'
          (fun j' hj' => hjs j' (by simp [hj']))
        · intro p hp
          rcases List.mem_cons.mp hp with hp1 | hp2
          · subst hp1
            exact ⟨by omega, hbj1, hbj2, hjlo, hjhi⟩
          · exact hacc p hp2
        · exact hdiag
        · exact hP4
        · right
          refine ⟨?_, hle, fun j' hj' => hgt j' (by simp [hj'])⟩
          rw [List.lookup]
          rw [show (i == j) = false from by simp; omega]
          exact hlk

theorem jsIn_popular (b : List Char) (c : Char) (blo bhi : Nat)
    (h : popularB b c = true) : jsIn b c blo bhi = [] := by
  rw [jsIn, b2j, if_pos h]
  rfl

theorem outerLoop_diag (s : List Char) (lo hi : Nat) (hhi : hi ≤ s.length) :
    ∀ (n i0 : Nat) (j2 : J2Len) (bi bj bs : Nat),
      lo ≤ i0 → i0 + n = hi →
      (∀ p ∈ j2, 1 ≤ p.2 ∧ p.2 ≤ diagRun s lo hi p.1 ∧
        (lo < i0 ∧ p.2 ≤ diagRun s lo hi (i0 - 1)) ∧ lo ≤ p.1 ∧ p.1 < hi) →
      (lo < i0 → 1 ≤ diagRun s lo hi (i0 - 1) →
        List.lookup (i0 - 1) j2 = some (diagRun s lo hi (i0 - 1))) →
      bi = bj →
      (∀ i', lo ≤ i' → i' < i0 → diagRun s lo hi i' ≤ bs) →
      (outerLoop s s lo hi (List.range' i0 n) (j2, (bi, bj, bs))).2.1 =
        (outerLoop s s lo hi (List.range' i0 n) (j2, (bi, bj, bs))).2.2.1
  | 0, i0, j2, bi, bj, bs, _, _, _, _, hdiag, _ => by
    rw [List.range'_zero, outerLoop]
    exact hdiag
  | n + 1, i0, j2, bi, bj, bs, hlo, hcov, htable, hP2, hdiag, hP4 => by
    have hi0hi : i0 < hi := by omega
    have hi0len : i0 < s.length := by omega
    obtain ⟨c, hc⟩ : ∃ c, s.get? i0 = some c :=
      ⟨s.get ⟨i0, hi0len⟩, List.get?_eq_get hi0len⟩
    rw [List.range'_succ, outerLoop, hc]
    dsimp only
    by_cases hpop : popularB s c = true
    · rw [jsIn_popular s c lo hi hpop]
      have hnp0 : nonpopB s i0 = false := by
        rw [nonpopB, hc]
        simp [hpop]
      have hinner0 : innerLoop j2 i0 [] [] (bi, bj, bs) = ([], (bi, bj, bs)) := rfl
      rw [hinner0]
      apply outerLoop_diag s lo hi hhi n (i0 + 1) [] bi bj bs (by omega) (by omega)
        (by simp) ?_ hdiag ?_
      · intro _ hd1
        have : diagRun s lo hi (i0 + 1 - 1) = 0 := by
          apply diagRun_bad
          intro ⟨_, _, hnn⟩
          rw [show i0 + 1 - 1 = i0 from rfl] at hnn
          rw [hnp0] at hnn
          exact absurd hnn (by simp)
        omega
      · intro i' h1 h2
        by_cases h3 : i' < i0
        · exact hP4 i' h1 h3
        · have hie : i' = i0 := by omega
          subst hie
          have : diagRun s lo hi i' = 0 := by
            apply diagRun_bad
            intro ⟨_, _, hnn⟩
            rw [hnp0] at hnn
            exact absurd hnn (by simp)
          omega
    · have hnp : nonpopB s i0 = true := by
        rw [nonpopB, hc]
        simp [Bool.eq_false_iff.mpr hpop]
      have hd1i0 : 1 ≤ diagRun s lo hi i0 := diagRun_ge_one s lo hi i0 hlo hi0hi hnp
      have hHK : lkPred j2 i0 + 1 = diagRun s lo hi i0 := by
        by_cases hi00 : i0 = 0
        · subst hi00
          have h0 : lkPred j2 0 = 0 := by simp [lkPred]
          have hlo0 : lo = 0 := by omega
          subst hlo0
          rw [h0, diagRun_lo s 0 hi hi0hi hnp]
        · rw [lkPred, if_neg hi00]
          rcases hlk : List.lookup (i0 - 1) j2 with _ | v
          · have h0 : lk j2 (i0 - 1) = 0 := by simp [lk, hlk]
            rw [h0]
            by_cases hieq : i0 = lo
            · rw [hieq]
              rw [diagRun_lo s lo hi (by omega) (by rwa [hieq] at hnp)]
            · have hd0 : diagRun s lo hi (i0 - 1) = 0 := by
                by_contra hne
                have h1 : 1 ≤ diagRun s lo hi (i0 - 1) := by omega
                have h2 := hP2 (by omega) h1
                rw [hlk] at h2
                simp at h2
              rw [diagRun_step s lo hi i0 (by omega) hi0hi hnp, hd0]
          · have h0 : lk j2 (i0 - 1) = v := by simp [lk, hlk]
            rw [h0]
            obtain ⟨hv1, hv2, ⟨hv3, hv4⟩, hv5, hv6⟩ := htable (i0 - 1, v) (lookup_mem hlk)
            dsimp only at hv1 hv2 hv4 hv5 hv6
            have h1 : 1 ≤ diagRun s lo hi (i0 - 1) := by omega
            have hexact := hP2 hv3 h1
            rw [hlk] at hexact
            have hveq := Option.some.inj hexact
            rw [diagRun_step s lo hi i0 hv3 hi0hi hnp]
            omega
      have hHB : ∀ j, lo ≤ j → j < hi → nonpopB s j = true →
          lkPred j2 j + 1 ≤ diagRun s lo hi j ∧
            lkPred j2 j + 1 ≤ diagRun s lo hi i0 := by
        intro j hjlo hjhi hjnp
        have hdj1 : 1 ≤ diagRun s lo hi j := diagRun_ge_one s lo hi j hjlo hjhi hjnp
        by_cases hj0 : j = 0
        · subst hj0
          have h0 : lkPred j2 0 = 0 := by simp [lkPred]
          rw [h0]
          omega
        · rw [lkPred, if_neg hj0]
          rcases hlk : List.lookup (j - 1) j2 with _ | v
          · have h0 : lk j2 (j - 1) = 0 := by simp [lk, hlk]
            rw [h0]
            omega
          · have h0 : lk j2 (j - 1) = v := by simp [lk, hlk]
            rw [h0]
            obtain ⟨hv1, hv2, ⟨hv3, hv4⟩, hv5, hv6⟩ := htable (j - 1, v) (lookup_mem hlk)
            dsimp only at hv1 hv2 hv4 hv5 hv6
            constructor
            · rw [diagRun_step s lo hi j (by omega) hjhi hjnp]
              omega
            · rw [diagRun_step s lo hi i0 hv3 hi0hi hnp]
              omega
      have hjsprops : ∀ j ∈ jsIn s c lo hi, lo ≤ j ∧ j < hi ∧ nonpopB s j = true := by
        intro j hj
        obtain ⟨h1, h2, h3, h4⟩ := mem_jsIn hj
        refine ⟨h1, h2, ?_⟩
        rw [nonpopB, h3]
        simp [h4]
      have hin := innerLoop_diag s lo hi i0 j2 hHK hHB (jsIn s c lo hi) [] bi bj bs
        (jsIn_sorted s c lo hi) hjsprops (by simp) hdiag hP4
        (Or.inl ⟨mem_jsIn_intro hlo hi0hi hc (Bool.eq_false_iff.mpr hpop), rfl⟩)
      obtain ⟨htab', hdiag', hP4', hlk', hle'⟩ := hin
      rcases hil : innerLoop j2 i0 (jsIn s c lo hi) [] (bi, bj, bs) with ⟨j2', best'⟩
      rcases best' with ⟨bi', bj', bs'⟩
      rw [hil] at htab' hdiag' hP4' hlk' hle'
      dsimp only at htab' hdiag' hP4' hlk' hle'
      apply outerLoop_diag s lo hi hhi n (i0 + 1) j2' bi' bj' bs' (by omega) (by omega)
        ?_ ?_ hdiag' ?_
      · intro p hp
        obtain ⟨h1, h2, h3, h4, h5⟩ := htab' p hp
        exact ⟨h1, h2, ⟨by omega, by rw [show i0 + 1 - 1 = i0 from rfl]; exact h3⟩, h4, h5⟩
      · intro _ _
        rw [show i0 + 1 - 1 = i0 from rfl]
        exact hlk'
      · intro i' h1 h2
        by_cases h3 : i' < i0
        · exact hP4' i' h1 h3
        · have hie : i' = i0 := by omega
          subst hie
          exact hle'

theorem dpBest_diag (s : List Char) (lo hi : Nat) (hhi : hi ≤ s.length) :
    (dpBest s s lo hi lo hi).1 = (dpBest s s lo hi lo hi).2.1 := by
  by_cases h : lo ≤ hi
  · exact outerLoop_diag s lo hi hhi (hi - lo) lo [] lo lo 0 (le_refl _) (by omega)
      (by simp) (by omega) rfl (by omega)
  · rw [dpBest, show hi - lo = 0 from by omega, List.range'_zero, outerLoop]

theorem extLeft_stuck (a b : List Char) (alo blo : Nat) :
    ∀ (fuel bj bs : Nat), extLeft a b alo blo fuel (alo, bj, bs) = (alo, bj, bs)
  | 0, _, _ => by rw [extLeft]
  | fuel + 1, bj, bs => by
    rw [extLeft]
    rw [if_neg]
    intro ⟨h1, _⟩
    omega

theorem flm_diag_eq (s : List Char) (lo hi : Nat) (hhi : hi ≤ s.length) :
    (flm s s lo hi lo hi).1 = (flm s s lo hi lo hi).2.1 := by
  simp only [flm]
  apply extRight_diag
  apply extLeft_diag
  exact dpBest_diag s lo hi hhi

theorem flm_k_pos (s : List Char) (lo hi : Nat) (hhi : hi ≤ s.length)
    (hlt : lo < hi) : 1 ≤ (flm s s lo hi lo hi).2.2 := by
  simp only [flm]
  rcases dpBest_sound s s lo hi lo hi with hdeg | ⟨_, _, h3, _, _, _⟩
  · rw [hdeg]
    rw [show (extLeft s s lo lo (lo, lo, 0).1 (lo, lo, 0)) = (lo, lo, 0) from
      extLeft_stuck s s lo lo _ lo 0]
    dsimp only
    have hfuel : ∃ f', hi - (lo + 0) = f' + 1 := ⟨hi - lo - 1, by omega⟩
    obtain ⟨f', hf⟩ := hfuel
    rw [hf, extRight]
    rw [if_pos]
    · have := extRight_k_mono s s hi hi f' (lo, lo, 0 + 1)
      dsimp only at this ⊢
      omega
    · have hlen : lo < s.length := by omega
      refine ⟨by omega, by omega, ?_, rfl⟩
      rw [show lo + 0 = lo from rfl, List.get?_eq_get hlen]
      simp
  · have hm1 := extLeft_k_mono s s lo lo (dpBest s s lo hi lo hi).1
      (dpBest s s lo hi lo hi)
    have hm2 := extRight_k_mono s s hi hi
      (hi - ((extLeft s s lo lo (dpBest s s lo hi lo hi).1 (dpBest s s lo hi lo hi)).1 +
        (extLeft s s lo lo (dpBest s s lo hi lo hi).1 (dpBest s s lo hi lo hi)).2.2))
      (extLeft s s lo lo (dpBest s s lo hi lo hi).1 (dpBest s s lo hi lo hi))
    omega

theorem matchTotal_diag (s : List Char) :
    ∀ (fuel lo hi : Nat), hi ≤ s.length → hi - lo < fuel →
      matchTotal s s fuel lo hi lo hi = hi - lo
  | 0, lo, hi, _, h => by omega
  | fuel + 1, lo, hi, hhi, hf => by
    rw [matchTotal]
    by_cases hlt : lo < hi
    · have hk : 1 ≤ (flm s s lo hi lo hi).2.2 := flm_k_pos s lo hi hhi hlt
      have hdiag : (flm s s lo hi lo hi).1 = (flm s s lo hi lo hi).2.1 :=
        flm_diag_eq s lo hi hhi
      rcases hflm : flm s s lo hi lo hi with ⟨i, j, k⟩
      rw [hflm] at hk hdiag
      dsimp only at hk hdiag ⊢
      subst hdiag
      rw [if_neg (by omega)]
      rcases flm_sound s s lo hi lo hi with hdeg | ⟨h1, h2, h3, h4, h5, _⟩
      · rw [hflm] at hdeg
        have : k = 0 := congrArg (fun p => p.2.2) hdeg
        omega
      · rw [hflm] at h1 h4
        dsimp only at h1 h4
        have hL := matchTotal_diag s fuel lo i (by omega) (by omega)
        have hR := matchTotal_diag s fuel (i + k) hi hhi (by omega)
        rw [hL, hR]
        omega
    · rcases hflm : flm s s lo hi lo hi with ⟨i, j, k⟩
      dsimp only
      by_cases hk : k = 0
      · rw [if_pos hk]
        omega
      · exfalso
        rcases flm_sound s s lo hi lo hi with hdeg | ⟨h1, _, h3, h4, _, _⟩
        · rw [hflm] at hdeg
          have : k = 0 := congrArg (fun p => p.2.2) hdeg
          exact hk this
        · rw [hflm] at h1 h3 h4
          dsimp only at h1 h3 h4
          omega

theorem ratioQ_self (a : List Char) : ratioQ a a = 1 := by
  rw [ratioQ]
  by_cases h : a.length + a.length = 0
  · rw [if_pos h]
  · rw [if_neg h]
    have hM : matchTotal a a (a.length + 1) 0 a.length 0 a.length = a.length - 0 :=
      matchTotal_diag a (a.length + 1) 0 a.length (le_refl _) (by omega)
    rw [hM]
    have hlen : (0 : ℚ) < (a.length : ℚ) := by
      have : 0 < a.length := by omega
      exact_mod_cast this
    rw [Nat.sub_zero, div_eq_one_iff_eq (by positivity)]
    ring

/-- Claim C4 (amended): the similarity scorer satisfies `0 ≤ sim(a,b) ≤ 1`
for all pairs, `sim(a,a) = 1.0`, and `sim(a,b) = 1.0` whenever the two
strings are identical after lowercasing (all three hold even when autojunk
is active); `sim(a,b) = 0.0` for completely disjoint strings that are not
both empty.  Symmetry, part of the original claim, does not hold. -/
theorem claim_C4_amended :
    (∀ x y : String, 0 ≤ calculate_similarity x y ∧ calculate_similarity x y ≤ 1) ∧
    (∀ x : String, calculate_similarity x x = 1) ∧
    (∀ x y : String, pyLower x = pyLower y → calculate_similarity x y = 1) ∧
    (∀ x y : String, (∀ c ∈ (pyLower x).data, c ∉ (pyLower y).data) →
      (x ≠ "" ∨ y ≠ "") → calculate_similarity x y = 0) := by
  refine ⟨fun x y => ⟨calculate_similarity_nonneg x y, calculate_similarity_le_one x y⟩,
    fun x => ratioQ_self _, ?_, ?_⟩
  · intro x y h
    show ratioQ (pyLower x).data (pyLower y).data = 1
    rw [h]
    exact ratioQ_self _
  · intro x y hdisj hne
    apply ratioQ_disjoint _ _ hdisj
    have hx : (pyLower x).data.length = x.data.length := by simp [pyLower]
    have hy : (pyLower y).data.length = y.data.length := by simp [pyLower]
    have hdata : x.data ≠ [] ∨ y.data ≠ [] := by
      rcases hne with h | h
      · left
        intro hd
        exact h (String.ext (by rw [hd]))
      · right
        intro hd
        exact h (String.ext (by rw [hd]))
    rcases hdata with h | h
    · have : 0 < x.data.length := List.length_pos.mpr h
      omega
    · have : 0 < y.data.length := List.length_pos.mpr h
      omega

/-- Witness for the amended claim C4: the lowercase-identity clause
discharged at a concrete pair. -/
theorem claim_C4_amended_witness : calculate_similarity "AB" "ab" = 1 :=
  claim_C4_amended.2.2.1 "AB" "ab" (by decide)
